import Mathlib

/-!
Verification of the vfilter (VQL) core against its specification.

The development shallowly embeds the Go sources of the repository:
`scope.go` (scope tree, variable resolution, protocol registration,
destructors), `protocols/protocol_iterate.go` (the Iterate protocol
dispatcher), and, where the deciding code is not part of the sources
(parser, evaluator, arithmetic protocols), models built from the
specification text, each marked `Modelled from the spec:` in its doc
comment.
-/

namespace VFilter

/-! ## Values and rows for the Iterate protocol

Embedding of the value shapes distinguished by
`IterateDispatcher.Iterate` (protocols/protocol_iterate.go): a
`LazyExpr` carrying its reduction, a `StoredQuery` carrying the rows
its `Eval` emits, an ordered dict, the distinguished `Null`, and
host-opaque values (`other`). Rows are values, as in Go where
`types.Row` is `interface`-typed. -/

inductive IValue where
  | lazyExpr (reduced : IValue)
  | storedQuery (rows : List IValue)
  | dict (entries : List (String × IValue))
  | null
  | other (tag : Nat)

/-- Modelled from the spec: the missing `is_null` helper of the
protocols package; the spec states "Iterate of Null is the empty
stream", so `is_null` recognises exactly the distinguished Null. -/
def isNullValue : IValue → Bool
  | .null => true
  | _ => false

/-- One registered Iterate implementation: an `Applicable` predicate and
the row stream it produces (protocol_iterate.go, `IterateProtocol`). -/
structure IterateImpl where
  applicable : IValue → Bool
  iterate : IValue → List IValue

/-- The Iterate dispatcher: an ordered list of implementations
(protocol_iterate.go, `IterateDispatcher`). -/
structure IterateDispatcher where
  impl : List IterateImpl

/-- Embedding of `IterateDispatcher.Iterate` (protocol_iterate.go lines
20-69): a type switch first intercepts `LazyExpr` (iterate its
reduction), `StoredQuery` (its Eval stream) and `*ordereddict.Dict`
(a single-row stream of the dict itself); otherwise the first
applicable registered implementation wins; otherwise the default emits
the single row with the value under the `_value` key, or nothing when
the value is Null. The Go channel is embedded as the list of rows it
yields before being closed. -/
def IterateDispatcher.iterateValue (self : IterateDispatcher) : IValue → List IValue
  | .lazyExpr reduced => self.iterateValue reduced
  | .storedQuery rows => rows
  | .dict entries => [.dict entries]
  | a =>
    match self.impl.find? (fun i => i.applicable a) with
    | some i => i.iterate a
    | none => if isNullValue a then [] else [.dict [("_value", a)]]

/-- C4 counterexample: an ordered dict reaching a dispatcher with no
registered implementation at all is intercepted by the built-in type
switch and yielded as the single row itself, not wrapped as a
`_value` row, so the claim fails at the concrete input `dict ()`. -/
theorem c4_iterate_default_counterexample :
    IterateDispatcher.iterateValue ⟨[]⟩ (IValue.dict []) = [IValue.dict []] ∧
      IValue.dict [] ≠ IValue.dict [("_value", IValue.dict [])] := by
  constructor
  · rfl
  · intro h
    simp at h

/-- C4 (amended): for every value that is not one of the three built-in
fast paths (LazyExpr, StoredQuery, Dict) and for which no registered
Iterate implementation is applicable, Iterate yields exactly the one
row with the value under the `_value` key, and the empty stream when
the value is Null. -/
theorem c4_iterate_default_amended (d : IterateDispatcher) (a : IValue)
    (himpl : ∀ i ∈ d.impl, i.applicable a = false)
    (hlazy : ∀ r, a ≠ .lazyExpr r)
    (hstored : ∀ rs, a ≠ .storedQuery rs)
    (hdict : ∀ es, a ≠ .dict es) :
    d.iterateValue a =
      if isNullValue a then [] else [.dict [("_value", a)]] := by
  have hfind : d.impl.find? (fun i => i.applicable a) = none := by
    rw [List.find?_eq_none]
    intro i hi
    simp [himpl i hi]
  cases a with
  | lazyExpr r => exact absurd rfl (hlazy r)
  | storedQuery rs => exact absurd rfl (hstored rs)
  | dict es => exact absurd rfl (hdict es)
  | null => simp [IterateDispatcher.iterateValue, hfind, isNullValue]
  | other t => simp [IterateDispatcher.iterateValue, hfind, isNullValue]

/-- C4 amended witness: the dispatcher with no implementations applied
to a host-opaque value yields the single `_value` row, and applied to
Null yields the empty stream. -/
theorem c4_iterate_default_amended_witness :
    IterateDispatcher.iterateValue ⟨[]⟩ (IValue.other 7) =
        [IValue.dict [("_value", IValue.other 7)]] ∧
      IterateDispatcher.iterateValue ⟨[]⟩ IValue.null = [] := by
  constructor
  · have h := c4_iterate_default_amended ⟨[]⟩ (IValue.other 7)
      (by intro i hi; simp at hi) (by intro r h; cases h)
      (by intro rs h; cases h) (by intro es h; cases h)
    simpa using h
  · have h := c4_iterate_default_amended ⟨[]⟩ IValue.null
      (by intro i hi; simp at hi) (by intro r h; cases h)
      (by intro rs h; cases h) (by intro es h; cases h)
    simpa using h

/-! ## Variable frames and Scope.Resolve (scope.go)

`Scope.Resolve` (scope.go lines 526-561) walks `self.vars` from the
last appended frame backwards, consulting the Associative protocol on
each frame.  The protocol returns a pair of an element (a Go `Any`,
which may be the Go `nil`, embedded as `Option`) and a presence flag.
A present element that is Go-nil is normalised to `Null{}`; an absent
but non-nil element feeds the default-value fallback, the innermost
(newest) such default prevailing.  A frame is embedded as the function
the Associative dispatch computes for it. -/

inductive SVal where
  | null
  | int (n : Int)
  | str (s : String)
deriving DecidableEq, Repr

structure Frame where
  lookup : String → Option SVal × Bool

/-- Embedding of the loop body of `Scope.Resolve`: the Go loop walks
`self.vars` by decreasing index, so it is run here on the reversed
frame list, threading the `default_value` accumulator. -/
def resolveLoop : List Frame → String → Option SVal → Option SVal × Bool
  | [], _, defv => (defv, defv.isSome)
  | f :: rest, field, defv =>
    match f.lookup field with
    | (element, true) => (some (element.getD SVal.null), true)
    | (element, false) =>
      resolveLoop rest field
        (if element.isSome && defv.isNone then element else defv)

/-- Embedding of `Scope.Resolve` (scope.go lines 526-561). -/
def resolve (vars : List Frame) (field : String) : Option SVal × Bool :=
  resolveLoop vars.reverse field none

/-- Embedding of `Scope.AppendVars` (scope.go lines 333-342): push the
row at the end of the frame stack. -/
def appendVars (vars : List Frame) (row : Frame) : List Frame :=
  vars ++ [row]

/-- An ordered-dict frame as seen through the Associative protocol:
present exactly for its keys, first entry with the key winning. -/
def dictFrame (entries : List (String × SVal)) : Frame :=
  ⟨fun field =>
    match entries.find? (fun e => e.1 == field) with
    | some e => (some e.2, true)
    | none => (none, false)⟩

theorem resolveLoop_not_present (fs : List Frame) (field : String)
    (defv : Option SVal) (h : ∀ f ∈ fs, (f.lookup field).2 = false) :
    resolveLoop fs field defv =
      ((defv <|> fs.findSome? fun f => (f.lookup field).1),
        (defv <|> fs.findSome? fun f => (f.lookup field).1).isSome) := by
  induction fs generalizing defv with
  | nil => simp [resolveLoop]
  | cons f rest ih =>
    have hf : (f.lookup field).2 = false := h f (by simp)
    have hrest : ∀ g ∈ rest, (g.lookup field).2 = false := by
      intro g hg
      exact h g (by simp [hg])
    rcases hlook : f.lookup field with ⟨element, pres⟩
    rw [hlook] at hf
    subst hf
    have step : resolveLoop (f :: rest) field defv =
        resolveLoop rest field
          (if element.isSome && defv.isNone then element else defv) := by
      rw [resolveLoop, hlook]
    rw [step, ih _ hrest]
    cases defv <;> cases element <;> simp [hlook, List.findSome?_cons]

/-- C6: `Scope.Resolve` walks the frames newest-first and the most
recently appended frame in which the field is present wins; in
particular a frame binding `k` to `v2` appended over an earlier frame
binding `k` to `v1` makes `Resolve k` return `v2`. -/
theorem c6_resolve_shadowing :
    (∀ (vars : List Frame) (f : Frame) (field : String),
        (f.lookup field).2 = true →
        resolve (appendVars vars f) field =
          (some ((f.lookup field).1.getD SVal.null), true)) ∧
      (∀ (vars : List Frame) (k : String) (v1 v2 : SVal),
        resolve
          (appendVars (appendVars vars (dictFrame [(k, v1)]))
            (dictFrame [(k, v2)])) k = (some v2, true)) := by
  constructor
  · intro vars f field hpres
    rcases hlook : f.lookup field with ⟨element, pres⟩
    rw [hlook] at hpres
    subst hpres
    simp [resolve, appendVars, resolveLoop, hlook]
  · intro vars k v1 v2
    simp [resolve, appendVars, resolveLoop, dictFrame]

/-- C6 witness: resolving a concrete shadowed binding returns the newer
value, both through the general newest-first statement and through the
two-frame shadowing instance. -/
theorem c6_resolve_shadowing_witness :
    resolve (appendVars [] (dictFrame [("k", SVal.int 1)])) "k" =
        (some (SVal.int 1), true) ∧
      resolve
          (appendVars (appendVars [] (dictFrame [("k", SVal.int 1)]))
            (dictFrame [("k", SVal.int 2)])) "k" = (some (SVal.int 2), true) := by
  constructor
  · have h := c6_resolve_shadowing.1 [] (dictFrame [("k", SVal.int 1)]) "k"
      (by simp [dictFrame])
    simpa [dictFrame] using h
  · exact c6_resolve_shadowing.2 [] "k" (SVal.int 1) (SVal.int 2)

/-- C10: when no frame reports the field as present, Resolve returns
the first non-nil default encountered while walking newest-first, and
reports present exactly when such a default exists (scope.go lines
526-561, the `default_value` fallback). -/
theorem c10_resolve_default_fallback (vars : List Frame) (field : String)
    (h : ∀ f ∈ vars, (f.lookup field).2 = false) :
    resolve vars field =
      (vars.reverse.findSome? (fun f => (f.lookup field).1),
        (vars.reverse.findSome? (fun f => (f.lookup field).1)).isSome) := by
  have hrev : ∀ f ∈ vars.reverse, (f.lookup field).2 = false := by
    intro f hf
    exact h f (List.mem_reverse.mp hf)
  rw [resolve, resolveLoop_not_present vars.reverse field none hrev]
  simp

/-- C10 witness: a frame supplying only a default (element non-nil,
present false) under a dict frame without the key makes Resolve report
the default as present. -/
theorem c10_resolve_default_fallback_witness :
    resolve [Frame.mk (fun _ => (some (SVal.int 9), false)), dictFrame []]
        "x" = (some (SVal.int 9), true) := by
  have h := c10_resolve_default_fallback
    [Frame.mk (fun _ => (some (SVal.int 9), false)), dictFrame []] "x"
    (by
      intro f hf
      rcases List.mem_cons.mp hf with rfl | hf2
      · rfl
      · rcases List.mem_cons.mp hf2 with rfl | hf3
        · rfl
        · cases hf3)
  simpa [dictFrame] using h

/-! ## The scope tree, protocol registration and Close (scope.go)

A protocol implementation supplied to `AddProtocolImpl` is a Go value
whose capability set is probed by a type switch over the eleven
protocol interfaces; it is embedded as its capability record.  Scopes
are mutable and aliased in Go, so they are embedded as records in a
store indexed by scope identity, and each operation is a store
transformer.  Only the fields the verified operations touch are
modelled: the eleven dispatcher lists, the child list, the destructor
stack (destructors identified by registration index) and the destroyed
flag. -/

structure ProtoImpl where
  isBool : Bool
  isEq : Bool
  isLt : Bool
  isAdd : Bool
  isSub : Bool
  isMul : Bool
  isDiv : Bool
  isMembership : Bool
  isAssociative : Bool
  isRegex : Bool
  isIterate : Bool
deriving DecidableEq, Repr

inductive Protocol where
  | boolP
  | eqP
  | ltP
  | addP
  | subP
  | mulP
  | divP
  | membershipP
  | associativeP
  | regexP
  | iterateP
deriving DecidableEq, Repr

structure Dispatchers where
  boolImpls : List ProtoImpl
  eqImpls : List ProtoImpl
  ltImpls : List ProtoImpl
  addImpls : List ProtoImpl
  subImpls : List ProtoImpl
  mulImpls : List ProtoImpl
  divImpls : List ProtoImpl
  membershipImpls : List ProtoImpl
  associativeImpls : List ProtoImpl
  regexImpls : List ProtoImpl
  iterateImpls : List ProtoImpl
deriving DecidableEq, Repr

def emptyDispatchers : Dispatchers :=
  ⟨[], [], [], [], [], [], [], [], [], [], []⟩

structure ScopeData where
  dispatchers : Dispatchers
  children : List Nat
  destructorCount : Nat
  isDestroyed : Bool

def emptyScopeData : ScopeData :=
  ⟨emptyDispatchers, [], 0, false⟩

structure ScopeStore where
  scopes : Nat → ScopeData

def setScope (st : ScopeStore) (id : Nat) (d : ScopeData) : ScopeStore :=
  ⟨fun i => if i = id then d else st.scopes i⟩

/-- Embedding of `Scope.Copy` (scope.go lines 260-290): the child scope
receives a copy of every dispatcher list (each Go dispatcher `Copy`
materialises a fresh slice, e.g. protocol_iterate.go lines 15-18,
embedded as the list value held under the child's own store entry) and
is appended to the parent's child list.  The shared registries and the
copied variable stack are not needed by the claims and are not
modelled. -/
def copyScope (st : ScopeStore) (parent fresh : Nat) : ScopeStore :=
  let p := st.scopes parent
  let child : ScopeData := ⟨p.dispatchers, [], 0, false⟩
  setScope (setScope st fresh child) parent
    { p with children := p.children ++ [fresh] }

/-- Embedding of the `Scope.NewScope` method (scope.go lines 76-105):
the new scope receives dispatcher copies and a fresh variable stack,
but - unlike `Copy` - it is not appended to `self.children`. -/
def newScopeFrom (st : ScopeStore) (parent fresh : Nat) : ScopeStore :=
  let p := st.scopes parent
  setScope st fresh ⟨p.dispatchers, [], 0, false⟩

/-- Embedding of the type switch of `Scope.AddProtocolImpl` (scope.go
lines 295-330) for one implementation value: the first interface the
value satisfies, in source order, receives it; a value satisfying none
panics with "Unsupported interface", embedded as an `Except.error`. -/
def addProtocolImplOne (d : Dispatchers) (t : ProtoImpl) :
    Except String Dispatchers :=
  if t.isBool then .ok { d with boolImpls := d.boolImpls ++ [t] }
  else if t.isEq then .ok { d with eqImpls := d.eqImpls ++ [t] }
  else if t.isLt then .ok { d with ltImpls := d.ltImpls ++ [t] }
  else if t.isAdd then .ok { d with addImpls := d.addImpls ++ [t] }
  else if t.isSub then .ok { d with subImpls := d.subImpls ++ [t] }
  else if t.isMul then .ok { d with mulImpls := d.mulImpls ++ [t] }
  else if t.isDiv then .ok { d with divImpls := d.divImpls ++ [t] }
  else if t.isMembership then
    .ok { d with membershipImpls := d.membershipImpls ++ [t] }
  else if t.isAssociative then
    .ok { d with associativeImpls := d.associativeImpls ++ [t] }
  else if t.isRegex then .ok { d with regexImpls := d.regexImpls ++ [t] }
  else if t.isIterate then
    .ok { d with iterateImpls := d.iterateImpls ++ [t] }
  else .error "Unsupported interface"

/-- `Scope.AddProtocolImpl` on the scope identified by `id`. -/
def addProtocolImplAt (st : ScopeStore) (id : Nat) (t : ProtoImpl) :
    Except String ScopeStore :=
  match addProtocolImplOne (st.scopes id).dispatchers t with
  | .ok d => .ok (setScope st id { st.scopes id with dispatchers := d })
  | .error e => .error e

/-- The first of the eleven protocol interfaces, in the switch order of
scope.go lines 300-326, that the implementation value satisfies. -/
def firstProtocol (t : ProtoImpl) : Option Protocol :=
  if t.isBool then some .boolP
  else if t.isEq then some .eqP
  else if t.isLt then some .ltP
  else if t.isAdd then some .addP
  else if t.isSub then some .subP
  else if t.isMul then some .mulP
  else if t.isDiv then some .divP
  else if t.isMembership then some .membershipP
  else if t.isAssociative then some .associativeP
  else if t.isRegex then some .regexP
  else if t.isIterate then some .iterateP
  else none

/-- Appending an implementation to the dispatcher of one protocol. -/
def Dispatchers.addImplTo (d : Dispatchers) (p : Protocol) (t : ProtoImpl) :
    Dispatchers :=
  match p with
  | .boolP => { d with boolImpls := d.boolImpls ++ [t] }
  | .eqP => { d with eqImpls := d.eqImpls ++ [t] }
  | .ltP => { d with ltImpls := d.ltImpls ++ [t] }
  | .addP => { d with addImpls := d.addImpls ++ [t] }
  | .subP => { d with subImpls := d.subImpls ++ [t] }
  | .mulP => { d with mulImpls := d.mulImpls ++ [t] }
  | .divP => { d with divImpls := d.divImpls ++ [t] }
  | .membershipP => { d with membershipImpls := d.membershipImpls ++ [t] }
  | .associativeP => { d with associativeImpls := d.associativeImpls ++ [t] }
  | .regexP => { d with regexImpls := d.regexImpls ++ [t] }
  | .iterateP => { d with iterateImpls := d.iterateImpls ++ [t] }

/-- The value satisfies none of the eleven protocol interfaces. -/
def hasNoCapability (t : ProtoImpl) : Bool :=
  !(t.isBool || t.isEq || t.isLt || t.isAdd || t.isSub || t.isMul ||
    t.isDiv || t.isMembership || t.isAssociative || t.isRegex || t.isIterate)

theorem addProtocolImplOne_eq_route (d : Dispatchers) (t : ProtoImpl) :
    addProtocolImplOne d t =
      match firstProtocol t with
      | some p => Except.ok (d.addImplTo p t)
      | none => Except.error "Unsupported interface" := by
  rcases t with ⟨b, e, l, a, s, m, v, mb, ac, rg, it⟩
  cases b
  case true => rfl
  cases e
  case true => rfl
  cases l
  case true => rfl
  cases a
  case true => rfl
  cases s
  case true => rfl
  cases m
  case true => rfl
  cases v
  case true => rfl
  cases mb
  case true => rfl
  cases ac
  case true => rfl
  cases rg
  case true => rfl
  cases it
  case true => rfl
  rfl

theorem firstProtocol_none_iff (t : ProtoImpl) :
    firstProtocol t = none ↔ hasNoCapability t = true := by
  rcases t with ⟨b, e, l, a, s, m, v, mb, ac, rg, it⟩
  cases b
  case true => simp [firstProtocol, hasNoCapability]
  cases e
  case true => simp [firstProtocol, hasNoCapability]
  cases l
  case true => simp [firstProtocol, hasNoCapability]
  cases a
  case true => simp [firstProtocol, hasNoCapability]
  cases s
  case true => simp [firstProtocol, hasNoCapability]
  cases m
  case true => simp [firstProtocol, hasNoCapability]
  cases v
  case true => simp [firstProtocol, hasNoCapability]
  cases mb
  case true => simp [firstProtocol, hasNoCapability]
  cases ac
  case true => simp [firstProtocol, hasNoCapability]
  cases rg
  case true => simp [firstProtocol, hasNoCapability]
  cases it
  case true => simp [firstProtocol, hasNoCapability]
  simp [firstProtocol, hasNoCapability]

/-- C8: `AddProtocolImpl` panics exactly on implementation values that
satisfy none of the eleven protocol interfaces; a value satisfying at
least one is appended to the dispatcher of the first interface it
satisfies, without a panic. -/
theorem c8_add_protocol_impl_panics (d : Dispatchers) (t : ProtoImpl) :
    (addProtocolImplOne d t = Except.error "Unsupported interface" ↔
        hasNoCapability t = true) ∧
      (∀ p, firstProtocol t = some p →
        addProtocolImplOne d t = Except.ok (d.addImplTo p t)) := by
  constructor
  · rw [addProtocolImplOne_eq_route]
    rcases hfp : firstProtocol t with _ | p
    · simp [(firstProtocol_none_iff t).mp hfp]
    · simp only [iff_iff_implies_and_implies]
      constructor
      · intro h
        cases h
      · intro h
        rw [← firstProtocol_none_iff t] at h
        rw [hfp] at h
        cases h
  · intro p hp
    rw [addProtocolImplOne_eq_route, hp]

/-- C8 witness: the all-capabilities-absent value panics, and a value
satisfying only the Iterate interface lands in the Iterate dispatcher
of the empty dispatcher set. -/
theorem c8_add_protocol_impl_panics_witness :
    addProtocolImplOne emptyDispatchers
        ⟨false, false, false, false, false, false, false, false, false,
          false, false⟩ = Except.error "Unsupported interface" ∧
      addProtocolImplOne emptyDispatchers
          ⟨false, false, false, false, false, false, false, false, false,
            false, true⟩ =
        Except.ok
          (emptyDispatchers.addImplTo Protocol.iterateP
            ⟨false, false, false, false, false, false, false, false, false,
              false, true⟩) := by
  constructor
  · exact (c8_add_protocol_impl_panics emptyDispatchers _).1.mpr rfl
  · exact (c8_add_protocol_impl_panics emptyDispatchers _).2 Protocol.iterateP rfl

/-- C7: after `Copy`, adding a protocol implementation to the child
scope leaves every dispatcher list of the parent scope unchanged,
because `Copy` hands the child its own copies of the lists. -/
theorem c7_copy_dispatcher_independence (st : ScopeStore)
    (parent fresh : Nat) (t : ProtoImpl) (hne : fresh ≠ parent)
    (st2 : ScopeStore)
    (hadd : addProtocolImplAt (copyScope st parent fresh) fresh t =
      Except.ok st2) :
    (st2.scopes parent).dispatchers = (st.scopes parent).dispatchers := by
  unfold addProtocolImplAt at hadd
  rcases hone : addProtocolImplOne
      ((copyScope st parent fresh).scopes fresh).dispatchers t with d2 | e
  · rw [hone] at hadd
    cases hadd
  · rw [hone] at hadd
    cases hadd
    simp [setScope, copyScope, Ne.symm hne]

def c7ConcreteStore : ScopeStore :=
  ⟨fun _ => emptyScopeData⟩

def c7Impl : ProtoImpl :=
  ⟨true, false, false, false, false, false, false, false, false, false, false⟩

def c7Result : ScopeStore :=
  ((addProtocolImplAt (copyScope c7ConcreteStore 0 1) 1
    c7Impl).toOption).getD c7ConcreteStore

/-- C7 witness: in a concrete two-scope store, registering a Bool-only
implementation on the copied child leaves the parent's dispatchers
untouched. -/
theorem c7_copy_dispatcher_independence_witness :
    (c7Result.scopes 0).dispatchers = (c7ConcreteStore.scopes 0).dispatchers :=
  c7_copy_dispatcher_independence c7ConcreteStore 0 1 c7Impl
    (by decide) c7Result rfl

/-! ## Scope.Close (scope.go lines 422-456)

`Close` holds the lock while recursively closing every child, then
sets `is_destroyed`, snapshots and clears the destructor list, unlocks
and runs the snapshot in reverse registration order, each destructor
under a `context.WithTimeout` of 60 seconds.  The embedding produces
the trace of observable events (the post-order closing of children,
the destroyed mark, and each destructor run with the timeout bound it
is given) next to the updated store.  The recursion over the child
lists of an aliased store is bounded by fuel; every theorem is stated
at a sufficient fuel. -/

inductive CloseEv where
  | markDestroyed (id : Nat)
  | runDestructor (id : Nat) (idx : Nat) (timeoutSeconds : Nat)
deriving DecidableEq, Repr

/-- The destructor events of one scope: the `count` registered
destructors in reverse registration order, each under the 60-second
timeout of scope.go line 444. -/
def ownEvents (id : Nat) (count : Nat) : List CloseEv :=
  (List.range count).reverse.map (fun i => .runDestructor id i 60)

def closeScope : Nat → ScopeStore → Nat → List CloseEv × ScopeStore
  | 0, st, _ => ([], st)
  | fuel + 1, st, id =>
    let closed := (st.scopes id).children.foldl
      (fun acc c =>
        let r := closeScope fuel acc.2 c
        (acc.1 ++ r.1, r.2))
      ([], st)
    let p1 := closed.2.scopes id
    let st2 := setScope closed.2 id
      { p1 with isDestroyed := true, destructorCount := 0 }
    (closed.1 ++ [CloseEv.markDestroyed id] ++
      ownEvents id p1.destructorCount, st2)

/-- The recursive closing of a list of child scopes, threading the
store and concatenating the event traces. -/
def closeChildren (fuel : Nat) (st : ScopeStore) (ids : List Nat) :
    List CloseEv × ScopeStore :=
  ids.foldl
    (fun acc c =>
      let r := closeScope fuel acc.2 c
      (acc.1 ++ r.1, r.2))
    ([], st)

theorem closeChildren_accum (fuel : Nat) (ids : List Nat)
    (tr : List CloseEv) (st : ScopeStore) :
    ids.foldl
        (fun acc c =>
          let r := closeScope fuel acc.2 c
          (acc.1 ++ r.1, r.2))
        (tr, st) =
      (tr ++ (closeChildren fuel st ids).1, (closeChildren fuel st ids).2) := by
  induction ids generalizing tr st with
  | nil => simp [closeChildren]
  | cons c rest ih =>
    simp only [closeChildren, List.foldl_cons]
    rw [ih, ih]
    simp

theorem closeChildren_cons (fuel : Nat) (st : ScopeStore) (c : Nat)
    (rest : List Nat) :
    closeChildren fuel st (c :: rest) =
      ((closeScope fuel st c).1 ++
          (closeChildren fuel (closeScope fuel st c).2 rest).1,
        (closeChildren fuel (closeScope fuel st c).2 rest).2) := by
  rw [closeChildren, List.foldl_cons]
  simp only [List.nil_append]
  exact closeChildren_accum fuel rest (closeScope fuel st c).1
    (closeScope fuel st c).2

theorem closeScope_succ (fuel : Nat) (st : ScopeStore) (id : Nat) :
    closeScope (fuel + 1) st id =
      ((closeChildren fuel st (st.scopes id).children).1 ++
          [CloseEv.markDestroyed id] ++
          ownEvents id
            (((closeChildren fuel st (st.scopes id).children).2.scopes
              id).destructorCount),
        setScope (closeChildren fuel st (st.scopes id).children).2 id
          { (closeChildren fuel st (st.scopes id).children).2.scopes id with
              isDestroyed := true, destructorCount := 0 }) := rfl

theorem ownEvents_timeout (id count s i tmo : Nat)
    (h : CloseEv.runDestructor s i tmo ∈ ownEvents id count) : tmo = 60 := by
  simp only [ownEvents, List.mem_map, List.mem_reverse, List.mem_range] at h
  rcases h with ⟨x, _, hx⟩
  cases hx
  rfl

theorem closeScope_timeout :
    ∀ fuel st id s i tmo,
      CloseEv.runDestructor s i tmo ∈ (closeScope fuel st id).1 → tmo = 60 := by
  intro fuel
  induction fuel with
  | zero =>
    intro st id s i tmo h
    simp [closeScope] at h
  | succ f ih =>
    have hcc : ∀ ids st s i tmo,
        CloseEv.runDestructor s i tmo ∈ (closeChildren f st ids).1 →
          tmo = 60 := by
      intro ids
      induction ids with
      | nil =>
        intro st s i tmo h
        simp [closeChildren] at h
      | cons c rest ihl =>
        intro st s i tmo h
        rw [closeChildren_cons] at h
        rcases List.mem_append.mp h with h | h
        · exact ih st c s i tmo h
        · exact ihl _ s i tmo h
    intro st id s i tmo h
    rw [closeScope_succ] at h
    rcases List.mem_append.mp h with h | h
    · rcases List.mem_append.mp h with h | h
      · exact hcc _ st s i tmo h
      · simp at h
    · exact ownEvents_timeout id _ s i tmo h

theorem closeScope_destroyed_mono :
    ∀ fuel st id x, (st.scopes x).isDestroyed = true →
      ((closeScope fuel st id).2.scopes x).isDestroyed = true := by
  intro fuel
  induction fuel with
  | zero =>
    intro st id x h
    simpa [closeScope] using h
  | succ f ih =>
    have hcc : ∀ ids st x, (st.scopes x).isDestroyed = true →
        ((closeChildren f st ids).2.scopes x).isDestroyed = true := by
      intro ids
      induction ids with
      | nil =>
        intro st x h
        simpa [closeChildren] using h
      | cons c rest ihl =>
        intro st x h
        rw [closeChildren_cons]
        exact ihl _ x (ih st c x h)
    intro st id x h
    rw [closeScope_succ]
    simp only [setScope]
    by_cases hx : x = id
    · simp [hx]
    · simp only [hx, if_false]
      exact hcc _ st x h

theorem closeChildren_destroyed_mono (fuel : Nat) :
    ∀ ids st x, (st.scopes x).isDestroyed = true →
      ((closeChildren fuel st ids).2.scopes x).isDestroyed = true := by
  intro ids
  induction ids with
  | nil =>
    intro st x h
    simpa [closeChildren] using h
  | cons c rest ihl =>
    intro st x h
    rw [closeChildren_cons]
    exact ihl _ x (closeScope_destroyed_mono fuel st c x h)

theorem closeScope_marks (fuel : Nat) (st : ScopeStore) (id : Nat) :
    ((closeScope (fuel + 1) st id).2.scopes id).isDestroyed = true := by
  rw [closeScope_succ]
  simp [setScope]

theorem closeChildren_destroys (fuel : Nat) :
    ∀ ids st c, c ∈ ids →
      ((closeChildren (fuel + 1) st ids).2.scopes c).isDestroyed = true := by
  intro ids
  induction ids with
  | nil =>
    intro st c h
    cases h
  | cons c0 rest ihl =>
    intro st c h
    rw [closeChildren_cons]
    rcases List.mem_cons.mp h with rfl | h
    · exact closeChildren_destroyed_mono (fuel + 1) rest _ c
        (closeScope_marks fuel st c)
    · exact ihl _ c h

def c3Store : ScopeStore :=
  ⟨fun i =>
    if i = 0 then ⟨emptyDispatchers, [1], 1, false⟩
    else if i = 1 then ⟨emptyDispatchers, [], 1, false⟩
    else emptyScopeData⟩

/-- C3 counterexample: on a scope (id 0) holding one destructor and one
child scope (id 1) holding one destructor, Close produces the child's
events strictly before this scope's destroyed mark and destructor run,
whereas the claimed order puts this scope's mark and destructor first
and the child close only after them. -/
theorem c3_close_order_counterexample :
    (closeScope 2 c3Store 0).1 =
        [CloseEv.markDestroyed 1, CloseEv.runDestructor 1 0 60,
          CloseEv.markDestroyed 0, CloseEv.runDestructor 0 0 60] ∧
      (closeScope 2 c3Store 0).1 ≠
        [CloseEv.markDestroyed 0, CloseEv.runDestructor 0 0 60,
          CloseEv.markDestroyed 1, CloseEv.runDestructor 1 0 60] := by
  constructor
  · rfl
  · decide

/-- C3 (amended): Close first closes all child scopes, then marks this
scope destroyed, and only then drains this scope's destructors, in
reverse registration order (the destructor at position `k` of the
drain is the one registered at index `count - 1 - k`), every
destructor run being bounded by a 60-second timeout. -/
theorem c3_close_order_amended (st : ScopeStore) (id fuel : Nat) :
    ((closeScope (fuel + 1) st id).1 =
        (closeChildren fuel st (st.scopes id).children).1 ++
          [CloseEv.markDestroyed id] ++
          ownEvents id
            (((closeChildren fuel st (st.scopes id).children).2.scopes
              id).destructorCount)) ∧
      (∀ count k, k < count →
        (ownEvents id count)[k]? =
          some (CloseEv.runDestructor id (count - 1 - k) 60)) ∧
      (∀ s i tmo,
        CloseEv.runDestructor s i tmo ∈ (closeScope (fuel + 1) st id).1 →
          tmo = 60) := by
  refine ⟨?_, ?_, ?_⟩
  · rw [closeScope_succ]
  · intro count k hk
    simp only [ownEvents]
    rw [List.getElem?_map, List.getElem?_reverse (by simpa using hk)]
    simp [List.getElem?_range (by omega : count - 1 - k < count)]
  · intro s i tmo h
    exact closeScope_timeout (fuel + 1) st id s i tmo h

/-- C3 amended witness: in the concrete two-scope store the drain
position 0 of a two-destructor scope is the destructor registered
last, and a concrete destructor event of the trace carries the
60-second bound. -/
theorem c3_close_order_amended_witness :
    (ownEvents 0 2)[0]? = some (CloseEv.runDestructor 0 1 60) ∧
      (60 : Nat) = 60 := by
  constructor
  · exact (c3_close_order_amended c3Store 0 1).2.1 2 0 (by decide)
  · exact (c3_close_order_amended c3Store 0 1).2.2 1 0 60 (by decide)

def c9Store : ScopeStore :=
  ⟨fun _ => emptyScopeData⟩

/-- C9 counterexample: a scope created from scope 0 by the `NewScope`
method is not recorded in scope 0's child list, and closing scope 0
leaves it undestroyed, refuting the claim for `NewScope`. -/
theorem c9_children_counterexample :
    ((newScopeFrom c9Store 0 1).scopes 0).children = [] ∧
      ((closeScope 3 (newScopeFrom c9Store 0 1) 0).2.scopes
        1).isDestroyed = false := by
  constructor
  · rfl
  · decide

/-- C9 (amended): a scope created from P by `Copy` is a child of P and
`P.Close()` closes it, and more generally Close destroys every scope
in P's child list; a scope created from P by the `NewScope` method is
not registered as a child of P. -/
theorem c9_children_amended (st : ScopeStore) (parent fresh fuel : Nat)
    (hne : fresh ≠ parent) :
    fresh ∈ ((copyScope st parent fresh).scopes parent).children ∧
      ((closeScope (fuel + 2) (copyScope st parent fresh) parent).2.scopes
        fresh).isDestroyed = true ∧
      (∀ c, c ∈ (st.scopes parent).children →
        ((closeScope (fuel + 2) st parent).2.scopes c).isDestroyed = true) ∧
      ((newScopeFrom st parent fresh).scopes parent).children =
        (st.scopes parent).children := by
  have hchild : fresh ∈ ((copyScope st parent fresh).scopes parent).children := by
    simp [copyScope, setScope]
  have hclose : ∀ st2 c, c ∈ (st2.scopes parent).children →
      ((closeScope (fuel + 2) st2 parent).2.scopes c).isDestroyed = true := by
    intro st2 c hc
    rw [closeScope_succ]
    simp only [setScope]
    by_cases hcp : c = parent
    · simp [hcp]
    · simp only [hcp, if_false]
      exact closeChildren_destroys fuel _ st2 c hc
  refine ⟨hchild, hclose _ fresh hchild, hclose st, ?_⟩
  simp [newScopeFrom, setScope, Ne.symm hne]

/-- C9 amended witness: copying scope 0 of the empty store into id 1
registers 1 as a child of 0 and closing 0 destroys it. -/
theorem c9_children_amended_witness :
    1 ∈ ((copyScope c9Store 0 1).scopes 0).children ∧
      ((closeScope 2 (copyScope c9Store 0 1) 0).2.scopes
        1).isDestroyed = true := by
  constructor
  · exact (c9_children_amended c9Store 0 1 0 (by decide)).1
  · exact (c9_children_amended c9Store 0 1 0 (by decide)).2.1

/-! ## Arithmetic protocols (C5)

The arithmetic protocol implementations (`_AddInts`, `_AddStrings`,
`_AddFloats`, `_NumericDiv`, `_NullEqProtocol`, ...) are not part of
the sources; only the test table `execTestsSerialization`
(src/vfilter_test.go lines 19-137) that pins their observable
behaviour is.  Go's `float64` is embedded as `Rat`; none of the
verified facts depends on rounding. -/

inductive VVal where
  | null
  | vbool (b : Bool)
  | vint (n : Int)
  | vfloat (q : Rat)
  | vstr (s : String)
deriving DecidableEq, Repr

/-- Modelled from the spec: the numeric widening helper `to_float`
used by the arithmetic protocols (integers widen to float, §4.1). -/
def toFloat : VVal → Option Rat
  | .vint n => some (n : Rat)
  | .vfloat q => some q
  | _ => none

/-- Modelled from the spec: the Add dispatch of §4.2 with the
implementations `_AddInts`, `_AddFloats` (either operand widening) and
`_AddStrings` registered by `NewScope` (scope.go line 480); arithmetic
on a type pair no implementation matches yields Null (§4.2 item 3). -/
def addValue : VVal → VVal → VVal
  | .vint x, .vint y => .vint (x + y)
  | .vstr x, .vstr y => .vstr (x ++ y)
  | .vfloat x, .vfloat y => .vfloat (x + y)
  | .vint x, .vfloat y => .vfloat ((x : Rat) + y)
  | .vfloat x, .vint y => .vfloat (x + (y : Rat))
  | _, _ => .null

/-- Modelled from the spec: the `_NumericDiv` implementation
(registered by `NewScope`, scope.go line 485), with the
division-by-zero result pinned by the repository's own test table:
src/vfilter_test.go line 49 expects `10 / 0` to evaluate to `false`
("Division by 0 silently trapped").  The spec sentence claims Null
instead, but under the spec's own Null equality contract a Null result
would fail that test, so the test is taken as the authority.  Division
on a non-numeric pair has no applicable implementation and yields Null
(§4.2 item 3). -/
def divValue (a b : VVal) : VVal :=
  match toFloat a, toFloat b with
  | some x, some y => if y = 0 then .vbool false else .vfloat (x / y)
  | _, _ => .null

/-- Modelled from the spec: the Eq dispatch restricted to what the
claims need, with the `_NullEqProtocol` contract of §4.1: Null equals
only Null, and `Null == x` is false for every other x. -/
def eqValue : VVal → VVal → Bool
  | .null, .null => true
  | .null, _ => false
  | _, .null => false
  | .vbool x, .vbool y => x == y
  | .vint x, .vint y => x == y
  | .vfloat x, .vfloat y => x == y
  | .vint x, .vfloat y => (x : Rat) == y
  | .vfloat x, .vint y => x == (y : Rat)
  | .vstr x, .vstr y => x == y
  | _, _ => false

/-- Embedding of the relevant rows of the test table
`execTestsSerialization` (src/vfilter_test.go lines 48-53). -/
def execTestExpected : List (String × VVal) :=
  [("10 / 0", .vbool false),
   ("1 + 'foo'", .null),
   ("'foo' - 'bar'", .null)]

/-- C5 counterexample: `10 / 0` evaluates to the boolean false, not to
Null; the repository's test table expects exactly that value, and
under the Null equality contract a Null result would not equal the
expected `false`, so the claim fails at the concrete input `10 / 0`. -/
theorem c5_div_zero_counterexample :
    divValue (.vint 10) (.vint 0) = .vbool false ∧
      divValue (.vint 10) (.vint 0) ≠ .null ∧
      (execTestExpected.find? (fun e => e.1 == "10 / 0")).map Prod.snd =
        some (.vbool false) ∧
      eqValue .null (.vbool false) = false := by
  refine ⟨rfl, by decide, rfl, rfl⟩

/-- C5 (amended): division of any numeric value by zero evaluates to
the boolean false - silently trapped, never an abort (the embedded
evaluation is total) - and adding an Integer to a String evaluates to
Null. -/
theorem c5_arith_fault_amended (a : VVal) (ha : (toFloat a).isSome) :
    divValue a (.vint 0) = .vbool false ∧
      addValue (.vint 1) (.vstr "foo") = .null := by
  constructor
  · rcases hx : toFloat a with _ | x
    · rw [hx] at ha
      cases ha
    · unfold divValue
      rw [hx]
      norm_num [toFloat]
  · rfl

/-- C5 amended witness: the two concrete clauses of the test table. -/
theorem c5_arith_fault_amended_witness :
    divValue (.vint 10) (.vint 0) = .vbool false ∧
      addValue (.vint 1) (.vstr "foo") = .null :=
  c5_arith_fault_amended (.vint 10) (by decide)

/-! ## LET bindings: lazy versus materialized (C2)

The evaluator is not part of the sources; only
`TestMaterializedStoredQuery` (src/vfilter_test.go lines 478-513) is.
The model follows the spec: `LET x = SELECT ...` binds a StoredQuery
and every later reference runs a fresh Eval; `LET x <= SELECT ...`
drains the StoredQuery exactly once at the LET.  A query is abstracted
by the number of side-effecting function invocations one Eval of it
performs, and a state carries the environment and the side-effect
counter (the test's `CounterFunctionCount`). -/

structure QueryDef where
  sideEffectCalls : Nat
deriving DecidableEq, Repr

inductive Binding where
  | stored (q : QueryDef)
  | materializedRows (q : QueryDef)
deriving DecidableEq, Repr

structure EvalState where
  counter : Nat
  env : List (String × Binding)
deriving DecidableEq, Repr

/-- Modelled from the spec: `LET name = SELECT ...` stores the query
without evaluating it. -/
def runLetLazy (st : EvalState) (name : String) (q : QueryDef) : EvalState :=
  { st with env := (name, .stored q) :: st.env }

/-- Modelled from the spec: `LET name <= SELECT ...` drains one Eval of
the query at the point of the LET and stores the frozen rows. -/
def runLetMaterialized (st : EvalState) (name : String) (q : QueryDef) :
    EvalState :=
  { counter := st.counter + q.sideEffectCalls,
    env := (name, .materializedRows q) :: st.env }

/-- Modelled from the spec: one reference `SELECT * FROM name`: a
stored query runs a fresh Eval (performing its side effects); a
materialized binding replays its frozen rows; an unknown name is an
empty stream. -/
def runSelectFrom (st : EvalState) (name : String) : EvalState :=
  match st.env.find? (fun e => e.1 == name) with
  | some (_, .stored q) => { st with counter := st.counter + q.sideEffectCalls }
  | some (_, .materializedRows _) => st
  | none => st

def runRefs (st : EvalState) (name : String) : Nat → EvalState
  | 0 => st
  | n + 1 => runRefs (runSelectFrom st name) name n

theorem runSelectFrom_stored (st : EvalState) (name : String) (q : QueryDef)
    (h : st.env.find? (fun e => e.1 == name) = some (name, .stored q)) :
    runSelectFrom st name = { st with counter := st.counter + q.sideEffectCalls } := by
  simp [runSelectFrom, h]

theorem runRefs_stored (name : String) (q : QueryDef) :
    ∀ (n : Nat) (st : EvalState),
      st.env.find? (fun e => e.1 == name) = some (name, .stored q) →
      (runRefs st name n).counter = st.counter + n * q.sideEffectCalls := by
  intro n
  induction n with
  | zero =>
    intro st h
    simp [runRefs]
  | succ m ih =>
    intro st h
    rw [runRefs, runSelectFrom_stored st name q h]
    have hstep := ih { st with counter := st.counter + q.sideEffectCalls } h
    rw [hstep]
    ring

theorem runRefs_materialized (name : String) (q : QueryDef) :
    ∀ (n : Nat) (st : EvalState),
      st.env.find? (fun e => e.1 == name) = some (name, .materializedRows q) →
      (runRefs st name n).counter = st.counter := by
  intro n
  induction n with
  | zero =>
    intro st h
    simp [runRefs]
  | succ m ih =>
    intro st h
    rw [runRefs]
    have hsel : runSelectFrom st name = st := by
      simp [runSelectFrom, h]
    rw [hsel, ih _ h]

/-- C2: after a lazy `LET name = SELECT ...`, n subsequent references
run the side-effecting function n more times (once per reference);
after a materialized `LET name <= SELECT ...` it has run exactly once,
and any number of later references leave the counter unchanged. -/
theorem c2_let_lazy_vs_materialized (st : EvalState) (name : String)
    (q : QueryDef) (n : Nat) :
    (runRefs (runLetLazy st name q) name n).counter =
        st.counter + n * q.sideEffectCalls ∧
      (runRefs (runLetMaterialized st name q) name n).counter =
        st.counter + q.sideEffectCalls := by
  constructor
  · rw [runRefs_stored name q n (runLetLazy st name q)
      (by simp [runLetLazy])]
    rfl
  · rw [runRefs_materialized name q n (runLetMaterialized st name q)
      (by simp [runLetMaterialized])]
    rfl

/-! ## The parser, the canonical rendering and the round trip (C1)

Modelled from the spec: the lexer+parser and the canonical `ToString`
(spec sections 4.4 and 8) are not part of the sources; only the round
trip tests are.  The model works at the token level of section 4.4: a
statement list of SELECT and LET statements over the full
operator-precedence expression grammar (OR < AND < NOT < comparison <
additive < multiplicative < unary minus < member/index < atom), whose
atoms are the integer, float, string, TRUE, FALSE and NULL literals,
identifiers, named-argument function calls `f(k=v, ...)` (the spec's
dict-like calls included), array literals `(e1, e2, ...)`
(disambiguated from a parenthesised grouping by the comma, as the spec
directs), parenthesised groupings and subquery atoms in braces, with
named plugin arguments, column aliases and star columns, WHERE /
GROUP BY / ORDER BY [DESC] / LIMIT clauses, and
`LET name [<=] SELECT ...` / `LET name [<=] expr`.  The
renderer emits parentheses only where precedence requires them, as the
spec demands of the canonical form; the parser is recursive descent
with a fuel bound.  The claim's property is proved as: re-parsing the
rendering of every AST of the fragment reproduces the AST. -/

inductive Tok where
  | id (s : String)
  | intTok (n : Nat)
  | floatTok (ip fp : Nat)
  | strTok (s : String)
  | kwSelect
  | kwFrom
  | kwWhere
  | kwLet
  | kwAs
  | kwAnd
  | kwOr
  | kwNot
  | kwIn
  | kwGroup
  | kwBy
  | kwOrder
  | kwDesc
  | kwLimit
  | kwTrue
  | kwFalse
  | kwNull
  | eqTok
  | neTok
  | ltTok
  | leTok
  | gtTok
  | geTok
  | matchTok
  | plusTok
  | minusTok
  | starTok
  | slashTok
  | commaTok
  | dotTok
  | lparen
  | rparen
  | lbracket
  | rbracket
  | lbrace
  | rbrace
deriving DecidableEq, Repr

inductive CmpOp where
  | ceq
  | cne
  | clt
  | cle
  | cgt
  | cge
  | cin
  | cmatch
deriving DecidableEq, Repr

inductive AddOp where
  | aplus
  | aminus
deriving DecidableEq, Repr

inductive MulOp where
  | mtimes
  | mdiv
deriving DecidableEq, Repr

mutual

inductive Expr where
  | orE (l r : Expr)
  | andE (l r : Expr)
  | notE (e : Expr)
  | cmpE (op : CmpOp) (l r : Expr)
  | addE (op : AddOp) (l r : Expr)
  | mulE (op : MulOp) (l r : Expr)
  | negE (e : Expr)
  | memberE (e : Expr) (field : String)
  | indexE (e : Expr) (idx : Expr)
  | intLit (n : Nat)
  | floatLit (ip fp : Nat)
  | strLit (s : String)
  | identE (name : String)
  | trueLit
  | falseLit
  | nullLit
  | callE (name : String) (args : ArgList)
  | arrayLit (e1 e2 : Expr) (rest : Elems)
  | subquery (s : SelectAst)

/-- Array-literal elements beyond the first two.  The spec's array
literal `(e1, e2, ...)` is told apart from a parenthesised grouping by
context: `(e)` parses as a grouping, so a parseable array literal has
at least two elements, which the `arrayLit` constructor builds in. -/
inductive Elems where
  | nilElems
  | consElems (e : Expr) (rest : Elems)

inductive SelCol where
  | star
  | colExpr (e : Expr) (asName : Option String)

inductive SelCols where
  | lastCol (c : SelCol)
  | consCol (c : SelCol) (rest : SelCols)

inductive ArgList where
  | nilArgs
  | consArgs (name : String) (e : Expr) (rest : ArgList)

inductive OptExpr where
  | noExpr
  | someExpr (e : Expr)

inductive OptOrder where
  | noOrder
  | someOrder (e : Expr) (desc : Bool)

inductive SelectAst where
  | mk (cols : SelCols) (plugin : String) (args : ArgList)
    (whereE : OptExpr) (groupE : OptExpr) (orderE : OptOrder)
    (limit : Option Nat)

end

/-- The precedence level of a node, 1 (OR) to 9 (atoms), following the
spec's lowest-to-highest listing in section 4.4. -/
def Expr.prec : Expr → Nat
  | .orE _ _ => 1
  | .andE _ _ => 2
  | .notE _ => 3
  | .cmpE _ _ _ => 4
  | .addE _ _ _ => 5
  | .mulE _ _ _ => 6
  | .negE _ => 7
  | .memberE _ _ => 8
  | .indexE _ _ => 8
  | _ => 9

def renderCmpOp : CmpOp → Tok
  | .ceq => .eqTok
  | .cne => .neTok
  | .clt => .ltTok
  | .cle => .leTok
  | .cgt => .gtTok
  | .cge => .geTok
  | .cin => .kwIn
  | .cmatch => .matchTok

def renderAddOp : AddOp → Tok
  | .aplus => .plusTok
  | .aminus => .minusTok

def renderMulOp : MulOp → Tok
  | .mtimes => .starTok
  | .mdiv => .slashTok

/-- Parenthesise a rendered subterm exactly when its node's precedence
is below the precedence its position requires (the canonical form's
"parentheses inserted only where required"). -/
def wrapTok (p : Nat) (e : Expr) (r : List Tok) : List Tok :=
  if p ≤ e.prec then r else .lparen :: (r ++ [.rparen])

mutual

def sizeE : Expr → Nat
  | .orE l r => 1 + sizeE l + sizeE r
  | .andE l r => 1 + sizeE l + sizeE r
  | .notE e => 1 + sizeE e
  | .cmpE _ l r => 1 + sizeE l + sizeE r
  | .addE _ l r => 1 + sizeE l + sizeE r
  | .mulE _ l r => 1 + sizeE l + sizeE r
  | .negE e => 1 + sizeE e
  | .memberE e _ => 1 + sizeE e
  | .indexE e i => 1 + sizeE e + sizeE i
  | .intLit _ => 1
  | .floatLit _ _ => 1
  | .strLit _ => 1
  | .identE _ => 1
  | .trueLit => 1
  | .falseLit => 1
  | .nullLit => 1
  | .callE _ args => 1 + sizeArgs args
  | .arrayLit e1 e2 rest => 1 + sizeE e1 + sizeE e2 + sizeElems rest
  | .subquery s => 1 + sizeSel s

def sizeElems : Elems → Nat
  | .nilElems => 0
  | .consElems e rest => 1 + sizeE e + sizeElems rest

def sizeCol : SelCol → Nat
  | .star => 1
  | .colExpr e _ => 1 + sizeE e

def sizeCols : SelCols → Nat
  | .lastCol c => 1 + sizeCol c
  | .consCol c rest => 1 + sizeCol c + sizeCols rest

def sizeArgs : ArgList → Nat
  | .nilArgs => 0
  | .consArgs _ e rest => 1 + sizeE e + sizeArgs rest

def sizeOptE : OptExpr → Nat
  | .noExpr => 0
  | .someExpr e => 1 + sizeE e

def sizeOptOrd : OptOrder → Nat
  | .noOrder => 0
  | .someOrder e _ => 1 + sizeE e

def sizeSel : SelectAst → Nat
  | .mk cols _ args whereE groupE orderE _ =>
    1 + sizeCols cols + sizeArgs args + sizeOptE whereE + sizeOptE groupE +
      sizeOptOrd orderE

end

def renderLimitClause : Option Nat → List Tok
  | none => []
  | some n => [.kwLimit, .intTok n]

mutual

/-- Modelled from the spec: the canonical rendering of an expression at
its own precedence, subterms wrapped per position. -/
def renderRaw : Expr → List Tok
  | .orE l r =>
    wrapTok 1 l (renderRaw l) ++ [.kwOr] ++ wrapTok 2 r (renderRaw r)
  | .andE l r =>
    wrapTok 2 l (renderRaw l) ++ [.kwAnd] ++ wrapTok 3 r (renderRaw r)
  | .notE e => .kwNot :: wrapTok 3 e (renderRaw e)
  | .cmpE op l r =>
    wrapTok 5 l (renderRaw l) ++ [renderCmpOp op] ++ wrapTok 5 r (renderRaw r)
  | .addE op l r =>
    wrapTok 5 l (renderRaw l) ++ [renderAddOp op] ++ wrapTok 6 r (renderRaw r)
  | .mulE op l r =>
    wrapTok 6 l (renderRaw l) ++ [renderMulOp op] ++ wrapTok 7 r (renderRaw r)
  | .negE e => .minusTok :: wrapTok 7 e (renderRaw e)
  | .memberE e f => wrapTok 8 e (renderRaw e) ++ [.dotTok, .id f]
  | .indexE e i =>
    wrapTok 8 e (renderRaw e) ++ [.lbracket] ++ renderRaw i ++ [.rbracket]
  | .intLit n => [.intTok n]
  | .floatLit a b => [.floatTok a b]
  | .strLit s => [.strTok s]
  | .identE s => [.id s]
  | .trueLit => [.kwTrue]
  | .falseLit => [.kwFalse]
  | .nullLit => [.kwNull]
  | .callE name args => .id name :: .lparen :: (renderArgs args ++ [.rparen])
  | .arrayLit e1 e2 rest =>
    .lparen :: (renderRaw e1 ++
      .commaTok :: (renderRaw e2 ++ (renderElems rest ++ [.rparen])))
  | .subquery s => .lbrace :: (renderSelect s ++ [.rbrace])

def renderElems : Elems → List Tok
  | .nilElems => []
  | .consElems e rest => .commaTok :: (renderRaw e ++ renderElems rest)

def renderCol : SelCol → List Tok
  | .star => [.starTok]
  | .colExpr e none => renderRaw e
  | .colExpr e (some a) => renderRaw e ++ [.kwAs, .id a]

def renderCols : SelCols → List Tok
  | .lastCol c => renderCol c
  | .consCol c rest => renderCol c ++ [.commaTok] ++ renderCols rest

def renderArgs : ArgList → List Tok
  | .nilArgs => []
  | .consArgs name e rest =>
    [.id name, .eqTok] ++ renderRaw e ++ renderArgsTail rest

def renderArgsTail : ArgList → List Tok
  | .nilArgs => []
  | .consArgs name e rest =>
    [.commaTok, .id name, .eqTok] ++ renderRaw e ++ renderArgsTail rest

def renderWhereClause : OptExpr → List Tok
  | .noExpr => []
  | .someExpr e => .kwWhere :: renderRaw e

def renderGroupClause : OptExpr → List Tok
  | .noExpr => []
  | .someExpr e => .kwGroup :: .kwBy :: renderRaw e

def renderOrderClause : OptOrder → List Tok
  | .noOrder => []
  | .someOrder e true => .kwOrder :: .kwBy :: (renderRaw e ++ [.kwDesc])
  | .someOrder e false => .kwOrder :: .kwBy :: renderRaw e

/-- Modelled from the spec: the canonical rendering of a SELECT
statement (section 4.4): `SELECT cols FROM plugin(args) [WHERE e]
[GROUP BY e] [ORDER BY e [DESC]] [LIMIT n]`. -/
def renderSelect : SelectAst → List Tok
  | .mk cols plugin args whereE groupE orderE lim =>
    .kwSelect :: renderCols cols ++ [.kwFrom, .id plugin, .lparen] ++
      renderArgs args ++ [.rparen] ++ renderWhereClause whereE ++
      renderGroupClause groupE ++ renderOrderClause orderE ++
      renderLimitClause lim

end

/-- A statement: a bare SELECT, or a LET binding a SELECT or an
expression, `<=` marking materialization. -/
inductive Stmt where
  | selectOnly (s : SelectAst)
  | letQuery (name : String) (materialize : Bool) (s : SelectAst)
  | letExpr (name : String) (materialize : Bool) (e : Expr)

def renderStmt : Stmt → List Tok
  | .selectOnly s => renderSelect s
  | .letQuery n true s => .kwLet :: .id n :: .leTok :: renderSelect s
  | .letQuery n false s => .kwLet :: .id n :: .eqTok :: renderSelect s
  | .letExpr n true e => .kwLet :: .id n :: .leTok :: renderRaw e
  | .letExpr n false e => .kwLet :: .id n :: .eqTok :: renderRaw e

/-- Modelled from the spec: the canonical rendering of a whole query
text - the statement list in order. -/
def renderProgram : List Stmt → List Tok
  | [] => []
  | s :: rest => renderStmt s ++ renderProgram rest

/-- The level at which a token continues an enclosing expression: OR
continues level 1, AND level 2, a comparison operator level 4, an
additive operator level 5, a multiplicative operator level 6, member
and index accessors level 8, an opening parenthesis level 9 (an
identifier followed by `(` is a call); every other token continues
nothing. -/
def contLevel : Tok → Nat
  | .kwOr => 1
  | .kwAnd => 2
  | .eqTok => 4
  | .neTok => 4
  | .ltTok => 4
  | .leTok => 4
  | .gtTok => 4
  | .geTok => 4
  | .kwIn => 4
  | .matchTok => 4
  | .plusTok => 5
  | .minusTok => 5
  | .starTok => 6
  | .slashTok => 6
  | .dotTok => 8
  | .lbracket => 8
  | .lparen => 9
  | _ => 0

/-- The remaining input cannot continue an expression of level `p`. -/
def stopAt (p : Nat) (toks : List Tok) : Bool :=
  match toks with
  | [] => true
  | t :: _ => contLevel t < p

def cmpOpOf : Tok → Option CmpOp
  | .eqTok => some .ceq
  | .neTok => some .cne
  | .ltTok => some .clt
  | .leTok => some .cle
  | .gtTok => some .cgt
  | .geTok => some .cge
  | .kwIn => some .cin
  | .matchTok => some .cmatch
  | _ => none

def addOpOf : Tok → Option AddOp
  | .plusTok => some .aplus
  | .minusTok => some .aminus
  | _ => none

def mulOpOf : Tok → Option MulOp
  | .starTok => some .mtimes
  | .slashTok => some .mdiv
  | _ => none

/-! The recursive-descent parser, modelled from the spec's grammar
(section 4.4).  Every recursive call spends one unit of fuel; the
round-trip theorem supplies a fuel linear in the input length. -/

mutual

def parsePrim : Nat → List Tok → Option (Expr × List Tok)
  | 0, _ => none
  | f + 1, toks =>
    match toks with
    | .intTok n :: r => some (.intLit n, r)
    | .floatTok a b :: r => some (.floatLit a b, r)
    | .strTok s :: r => some (.strLit s, r)
    | .id s :: .lparen :: r =>
      match parseArgsClosed f r with
      | some (args, r2) => some (.callE s args, r2)
      | none => none
    | .id s :: r => some (.identE s, r)
    | .kwTrue :: r => some (.trueLit, r)
    | .kwFalse :: r => some (.falseLit, r)
    | .kwNull :: r => some (.nullLit, r)
    | .lparen :: r =>
      match parseOrE f r with
      | some (e, .rparen :: r2) => some (e, r2)
      | some (e1, .commaTok :: r2) =>
        match parseOrE f r2 with
        | some (e2, r3) =>
          match parseElems f r3 with
          | some (es, r4) => some (.arrayLit e1 e2 es, r4)
          | none => none
        | none => none
      | _ => none
    | .lbrace :: r =>
      match parseSelect f r with
      | some (s, .rbrace :: r2) => some (.subquery s, r2)
      | _ => none
    | _ => none

def parseElems : Nat → List Tok → Option (Elems × List Tok)
  | 0, _ => none
  | f + 1, toks =>
    match toks with
    | .rparen :: r => some (.nilElems, r)
    | .commaTok :: r =>
      match parseOrE f r with
      | some (e, r2) =>
        match parseElems f r2 with
        | some (es, r3) => some (.consElems e es, r3)
        | none => none
      | none => none
    | _ => none

def parsePostLoop : Nat → Expr → List Tok → Option (Expr × List Tok)
  | 0, _, _ => none
  | f + 1, acc, toks =>
    match toks with
    | [] => some (acc, [])
    | t :: r =>
      if t = Tok.dotTok then
        match r with
        | .id s :: r2 => parsePostLoop f (.memberE acc s) r2
        | _ => none
      else if t = Tok.lbracket then
        match parseOrE f r with
        | some (i, .rbracket :: r2) => parsePostLoop f (.indexE acc i) r2
        | _ => none
      else some (acc, t :: r)

def parsePost : Nat → List Tok → Option (Expr × List Tok)
  | 0, _ => none
  | f + 1, toks =>
    match parsePrim f toks with
    | some (e, r) => parsePostLoop f e r
    | none => none

def parseUn : Nat → List Tok → Option (Expr × List Tok)
  | 0, _ => none
  | f + 1, toks =>
    match toks with
    | t :: r =>
      if t = Tok.minusTok then
        match parseUn f r with
        | some (e, r2) => some (.negE e, r2)
        | none => none
      else parsePost f (t :: r)
    | [] => parsePost f []

def parseMulLoop : Nat → Expr → List Tok → Option (Expr × List Tok)
  | 0, _, _ => none
  | f + 1, acc, toks =>
    match toks with
    | [] => some (acc, [])
    | t :: r =>
      match mulOpOf t with
      | some op =>
        match parseUn f r with
        | some (e, r2) => parseMulLoop f (.mulE op acc e) r2
        | none => none
      | none => some (acc, t :: r)

def parseMulE : Nat → List Tok → Option (Expr × List Tok)
  | 0, _ => none
  | f + 1, toks =>
    match parseUn f toks with
    | some (e, r) => parseMulLoop f e r
    | none => none

def parseAddLoop : Nat → Expr → List Tok → Option (Expr × List Tok)
  | 0, _, _ => none
  | f + 1, acc, toks =>
    match toks with
    | [] => some (acc, [])
    | t :: r =>
      match addOpOf t with
      | some op =>
        match parseMulE f r with
        | some (e, r2) => parseAddLoop f (.addE op acc e) r2
        | none => none
      | none => some (acc, t :: r)

def parseAddE : Nat → List Tok → Option (Expr × List Tok)
  | 0, _ => none
  | f + 1, toks =>
    match parseMulE f toks with
    | some (e, r) => parseAddLoop f e r
    | none => none

def parseCmpE : Nat → List Tok → Option (Expr × List Tok)
  | 0, _ => none
  | f + 1, toks =>
    match parseAddE f toks with
    | some (l, r1) =>
      match r1 with
      | [] => some (l, [])
      | t :: r2 =>
        match cmpOpOf t with
        | some op =>
          match parseAddE f r2 with
          | some (rr, r3) => some (.cmpE op l rr, r3)
          | none => none
        | none => some (l, t :: r2)
    | none => none

def parseNotE : Nat → List Tok → Option (Expr × List Tok)
  | 0, _ => none
  | f + 1, toks =>
    match toks with
    | t :: r =>
      if t = Tok.kwNot then
        match parseNotE f r with
        | some (e, r2) => some (.notE e, r2)
        | none => none
      else parseCmpE f (t :: r)
    | [] => parseCmpE f []

def parseAndLoop : Nat → Expr → List Tok → Option (Expr × List Tok)
  | 0, _, _ => none
  | f + 1, acc, toks =>
    match toks with
    | [] => some (acc, [])
    | t :: r =>
      if t = Tok.kwAnd then
        match parseNotE f r with
        | some (e, r2) => parseAndLoop f (.andE acc e) r2
        | none => none
      else some (acc, t :: r)

def parseAndE : Nat → List Tok → Option (Expr × List Tok)
  | 0, _ => none
  | f + 1, toks =>
    match parseNotE f toks with
    | some (e, r) => parseAndLoop f e r
    | none => none

def parseOrLoop : Nat → Expr → List Tok → Option (Expr × List Tok)
  | 0, _, _ => none
  | f + 1, acc, toks =>
    match toks with
    | [] => some (acc, [])
    | t :: r =>
      if t = Tok.kwOr then
        match parseAndE f r with
        | some (e, r2) => parseOrLoop f (.orE acc e) r2
        | none => none
      else some (acc, t :: r)

def parseOrE : Nat → List Tok → Option (Expr × List Tok)
  | 0, _ => none
  | f + 1, toks =>
    match parseAndE f toks with
    | some (e, r) => parseOrLoop f e r
    | none => none

def parseCol : Nat → List Tok → Option (SelCol × List Tok)
  | 0, _ => none
  | f + 1, toks =>
    match toks with
    | [] => none
    | t :: r =>
      if t = Tok.starTok then some (.star, r)
      else
        match parseOrE f (t :: r) with
        | some (e, r1) =>
          match r1 with
          | t2 :: r2 =>
            if t2 = Tok.kwAs then
              match r2 with
              | .id a :: r3 => some (.colExpr e (some a), r3)
              | _ => none
            else some (.colExpr e none, t2 :: r2)
          | [] => some (.colExpr e none, [])
        | none => none

def parseCols : Nat → List Tok → Option (SelCols × List Tok)
  | 0, _ => none
  | f + 1, toks =>
    match parseCol f toks with
    | some (c, r) =>
      match r with
      | t :: r1 =>
        if t = Tok.commaTok then
          match parseCols f r1 with
          | some (cs, r2) => some (.consCol c cs, r2)
          | none => none
        else some (.lastCol c, t :: r1)
      | [] => some (.lastCol c, [])
    | none => none

def parseArgsClosed : Nat → List Tok → Option (ArgList × List Tok)
  | 0, _ => none
  | f + 1, toks =>
    match toks with
    | .rparen :: r => some (.nilArgs, r)
    | .id name :: .eqTok :: r =>
      match parseOrE f r with
      | some (e, r2) =>
        match parseArgsTail f r2 with
        | some (rest, r3) => some (.consArgs name e rest, r3)
        | none => none
      | none => none
    | _ => none

def parseArgsTail : Nat → List Tok → Option (ArgList × List Tok)
  | 0, _ => none
  | f + 1, toks =>
    match toks with
    | .rparen :: r => some (.nilArgs, r)
    | .commaTok :: .id name :: .eqTok :: r =>
      match parseOrE f r with
      | some (e, r2) =>
        match parseArgsTail f r2 with
        | some (rest, r3) => some (.consArgs name e rest, r3)
        | none => none
      | none => none
    | _ => none

def parseWhereClause : Nat → List Tok → Option (OptExpr × List Tok)
  | 0, _ => none
  | f + 1, toks =>
    match toks with
    | [] => some (.noExpr, [])
    | t :: r =>
      if t = Tok.kwWhere then
        match parseOrE f r with
        | some (e, r2) => some (.someExpr e, r2)
        | none => none
      else some (.noExpr, t :: r)

def parseGroupClause : Nat → List Tok → Option (OptExpr × List Tok)
  | 0, _ => none
  | f + 1, toks =>
    match toks with
    | [] => some (.noExpr, [])
    | t :: r =>
      if t = Tok.kwGroup then
        match r with
        | .kwBy :: r1 =>
          match parseOrE f r1 with
          | some (e, r2) => some (.someExpr e, r2)
          | none => none
        | _ => none
      else some (.noExpr, t :: r)

def parseOrderClause : Nat → List Tok → Option (OptOrder × List Tok)
  | 0, _ => none
  | f + 1, toks =>
    match toks with
    | [] => some (.noOrder, [])
    | t :: r =>
      if t = Tok.kwOrder then
        match r with
        | .kwBy :: r1 =>
          match parseOrE f r1 with
          | some (e, r2) =>
            match r2 with
            | t2 :: r3 =>
              if t2 = Tok.kwDesc then some (.someOrder e true, r3)
              else some (.someOrder e false, t2 :: r3)
            | [] => some (.someOrder e false, [])
          | none => none
        | _ => none
      else some (.noOrder, t :: r)

def parseLimitClause : Nat → List Tok → Option (Option Nat × List Tok)
  | 0, _ => none
  | _ + 1, toks =>
    match toks with
    | [] => some (none, [])
    | t :: r =>
      if t = Tok.kwLimit then
        match r with
        | .intTok n :: r1 => some (some n, r1)
        | _ => none
      else some (none, t :: r)

def parseSelect : Nat → List Tok → Option (SelectAst × List Tok)
  | 0, _ => none
  | f + 1, toks =>
    match toks with
    | .kwSelect :: r =>
      match parseCols f r with
      | some (cols, r1) =>
        match r1 with
        | .kwFrom :: .id plugin :: .lparen :: r2 =>
          match parseArgsClosed f r2 with
          | some (args, r3) =>
            match parseWhereClause f r3 with
            | some (whereE, r4) =>
              match parseGroupClause f r4 with
              | some (groupE, r5) =>
                match parseOrderClause f r5 with
                | some (orderE, r6) =>
                  match parseLimitClause f r6 with
                  | some (lim, r7) =>
                    some (.mk cols plugin args whereE groupE orderE lim, r7)
                  | none => none
                | none => none
              | none => none
            | none => none
          | none => none
        | _ => none
      | none => none
    | _ => none

end

def parseLetBody (f : Nat) (name : String) (materialize : Bool)
    (toks : List Tok) : Option (Stmt × List Tok) :=
  match toks with
  | [] => none
  | t :: r =>
    if t = Tok.kwSelect then
      match parseSelect f (t :: r) with
      | some (s, r2) => some (.letQuery name materialize s, r2)
      | none => none
    else
      match parseOrE f (t :: r) with
      | some (e, r2) => some (.letExpr name materialize e, r2)
      | none => none

def parseStmt : Nat → List Tok → Option (Stmt × List Tok)
  | 0, _ => none
  | f + 1, toks =>
    match toks with
    | .kwLet :: .id name :: .leTok :: r => parseLetBody f name true r
    | .kwLet :: .id name :: .eqTok :: r => parseLetBody f name false r
    | _ =>
      match parseSelect f toks with
      | some (s, r) => some (.selectOnly s, r)
      | none => none

def parseProgram : Nat → List Tok → Option (List Stmt)
  | 0, _ => none
  | _ + 1, [] => some []
  | f + 1, t :: r =>
    match parseStmt f (t :: r) with
    | some (s, r2) =>
      match parseProgram f r2 with
      | some rest => some (s :: rest)
      | none => none
    | none => none

/-- Modelled from the spec: `Parse(text) -> (VQL, error)` at the token
level - parse the statement list with a fuel linear in the input. -/
def parseVQL (toks : List Tok) : Option (List Stmt) :=
  parseProgram (60 * toks.length + 30) toks

/-! Facts about stop tokens and operator tokens. -/

theorem stopAt_mono {p q : Nat} (hpq : p ≤ q) {toks : List Tok}
    (h : stopAt p toks = true) : stopAt q toks = true := by
  cases toks with
  | nil => rfl
  | cons t r =>
    simp [stopAt] at h ⊢
    omega

theorem contLevel_ne_three (t : Tok) : contLevel t ≠ 3 := by
  cases t <;> simp [contLevel]

theorem contLevel_ne_seven (t : Tok) : contLevel t ≠ 7 := by
  cases t <;> simp [contLevel]

theorem stopAt_four_to_three {toks : List Tok} (h : stopAt 4 toks = true) :
    stopAt 3 toks = true := by
  cases toks with
  | nil => rfl
  | cons t r =>
    simp [stopAt] at h ⊢
    have := contLevel_ne_three t
    omega

theorem stopAt_eight_to_seven {toks : List Tok} (h : stopAt 8 toks = true) :
    stopAt 7 toks = true := by
  cases toks with
  | nil => rfl
  | cons t r =>
    simp [stopAt] at h ⊢
    have := contLevel_ne_seven t
    omega

theorem cmpOpOf_eq_none {t : Tok} (h : contLevel t < 4) : cmpOpOf t = none := by
  cases t <;> first | rfl | simp [contLevel] at h

theorem addOpOf_eq_none {t : Tok} (h : contLevel t < 5) : addOpOf t = none := by
  cases t <;> first | rfl | simp [contLevel] at h

theorem mulOpOf_eq_none {t : Tok} (h : contLevel t < 6) : mulOpOf t = none := by
  cases t <;> first | rfl | simp [contLevel] at h

theorem cmpOpOf_renderCmpOp (op : CmpOp) : cmpOpOf (renderCmpOp op) = some op := by
  cases op <;> rfl

theorem addOpOf_renderAddOp (op : AddOp) : addOpOf (renderAddOp op) = some op := by
  cases op <;> rfl

theorem mulOpOf_renderMulOp (op : MulOp) : mulOpOf (renderMulOp op) = some op := by
  cases op <;> rfl

theorem contLevel_renderCmpOp (op : CmpOp) : contLevel (renderCmpOp op) = 4 := by
  cases op <;> rfl

theorem contLevel_renderAddOp (op : AddOp) : contLevel (renderAddOp op) = 5 := by
  cases op <;> rfl

theorem contLevel_renderMulOp (op : MulOp) : contLevel (renderMulOp op) = 6 := by
  cases op <;> rfl

theorem renderRaw_ne_nil (e : Expr) : renderRaw e ≠ [] := by
  cases e <;> simp [renderRaw, wrapTok]

/-- The first token of a rendered expression: never SELECT or `*`, not
NOT above the comparison level, not `-` above the unary level. -/
theorem renderRaw_head :
    ∀ (n : Nat) (e : Expr), sizeE e ≤ n → ∀ t ts, renderRaw e = t :: ts →
      t ≠ Tok.kwSelect ∧ t ≠ Tok.starTok ∧
        (4 ≤ e.prec → t ≠ Tok.kwNot) ∧ (8 ≤ e.prec → t ≠ Tok.minusTok) := by
  intro n
  induction n with
  | zero =>
    intro e he
    cases e <;> simp [sizeE] at he
  | succ m ih =>
    intro e he t ts heq
    have hleft : ∀ (p : Nat) (l : Expr) (tail : List Tok), sizeE l ≤ m →
        wrapTok p l (renderRaw l) ++ tail = t :: ts →
        (p ≤ l.prec →
          t ≠ Tok.kwSelect ∧ t ≠ Tok.starTok ∧
            (4 ≤ l.prec → t ≠ Tok.kwNot) ∧ (8 ≤ l.prec → t ≠ Tok.minusTok)) ∧
        (¬ p ≤ l.prec → t = Tok.lparen) := by
      intro p l tail hl hw
      unfold wrapTok at hw
      constructor
      · intro hp
        rw [if_pos hp] at hw
        rcases hrl : renderRaw l with _ | ⟨t0, ts0⟩
        · exact absurd hrl (renderRaw_ne_nil l)
        · rw [hrl] at hw
          simp only [List.cons_append] at hw
          have ht0 : t0 = t := (List.cons.injEq _ _ _ _).mp hw |>.1
          subst ht0
          exact ih l hl t0 ts0 hrl
      · intro hp
        rw [if_neg hp] at hw
        simp only [List.cons_append] at hw
        exact ((List.cons.injEq _ _ _ _).mp hw).1.symm
    cases e with
    | orE l r =>
      have hsz : sizeE l ≤ m := by simp [sizeE] at he ⊢; omega
      have hp : 1 ≤ l.prec := by cases l <;> simp [Expr.prec]
      have h1 := (hleft 1 l _ hsz (by simpa [renderRaw, List.append_assoc] using heq)).1 hp
      exact ⟨h1.1, h1.2.1, by simp [Expr.prec], by simp [Expr.prec]⟩
    | andE l r =>
      have hsz : sizeE l ≤ m := by simp [sizeE] at he ⊢; omega
      have h1 := hleft 2 l _ hsz (by simpa [renderRaw, List.append_assoc] using heq)
      by_cases hp : 2 ≤ l.prec
      · have h2 := h1.1 hp
        exact ⟨h2.1, h2.2.1, by simp [Expr.prec], by simp [Expr.prec]⟩
      · have h2 := h1.2 hp
        subst h2
        refine ⟨by simp, by simp, ?_, ?_⟩ <;> simp [Expr.prec]
    | notE x =>
      simp only [renderRaw] at heq
      have ht : t = Tok.kwNot := ((List.cons.injEq _ _ _ _).mp heq).1.symm
      subst ht
      refine ⟨by simp, by simp, ?_, ?_⟩ <;> simp [Expr.prec]
    | cmpE op l r =>
      have hsz : sizeE l ≤ m := by simp [sizeE] at he ⊢; omega
      have h1 := hleft 5 l _ hsz (by simpa [renderRaw, List.append_assoc] using heq)
      by_cases hp : 5 ≤ l.prec
      · have h2 := h1.1 hp
        exact ⟨h2.1, h2.2.1, fun _ => h2.2.2.1 (by omega), by simp [Expr.prec]⟩
      · have h2 := h1.2 hp
        subst h2
        refine ⟨by simp, by simp, ?_, ?_⟩ <;> simp [Expr.prec]
    | addE op l r =>
      have hsz : sizeE l ≤ m := by simp [sizeE] at he ⊢; omega
      have h1 := hleft 5 l _ hsz (by simpa [renderRaw, List.append_assoc] using heq)
      by_cases hp : 5 ≤ l.prec
      · have h2 := h1.1 hp
        exact ⟨h2.1, h2.2.1, fun _ => h2.2.2.1 (by omega), by simp [Expr.prec]⟩
      · have h2 := h1.2 hp
        subst h2
        refine ⟨by simp, by simp, ?_, ?_⟩ <;> simp [Expr.prec]
    | mulE op l r =>
      have hsz : sizeE l ≤ m := by simp [sizeE] at he ⊢; omega
      have h1 := hleft 6 l _ hsz (by simpa [renderRaw, List.append_assoc] using heq)
      by_cases hp : 6 ≤ l.prec
      · have h2 := h1.1 hp
        exact ⟨h2.1, h2.2.1, fun _ => h2.2.2.1 (by omega), by simp [Expr.prec]⟩
      · have h2 := h1.2 hp
        subst h2
        refine ⟨by simp, by simp, ?_, ?_⟩ <;> simp [Expr.prec]
    | negE x =>
      simp only [renderRaw] at heq
      have ht : t = Tok.minusTok := ((List.cons.injEq _ _ _ _).mp heq).1.symm
      subst ht
      refine ⟨by simp, by simp, ?_, ?_⟩ <;> simp [Expr.prec]
    | memberE x fld =>
      have hsz : sizeE x ≤ m := by simp [sizeE] at he ⊢; omega
      have h1 := hleft 8 x _ hsz (by simpa [renderRaw, List.append_assoc] using heq)
      by_cases hp : 8 ≤ x.prec
      · have h2 := h1.1 hp
        exact ⟨h2.1, h2.2.1, fun _ => h2.2.2.1 (by omega),
          fun _ => h2.2.2.2 (by omega)⟩
      · have h2 := h1.2 hp
        subst h2
        refine ⟨by simp, by simp, ?_, ?_⟩ <;> simp
    | indexE x i =>
      have hsz : sizeE x ≤ m := by simp [sizeE] at he ⊢; omega
      have h1 := hleft 8 x _ hsz (by simpa [renderRaw, List.append_assoc] using heq)
      by_cases hp : 8 ≤ x.prec
      · have h2 := h1.1 hp
        exact ⟨h2.1, h2.2.1, fun _ => h2.2.2.1 (by omega),
          fun _ => h2.2.2.2 (by omega)⟩
      · have h2 := h1.2 hp
        subst h2
        refine ⟨by simp, by simp, ?_, ?_⟩ <;> simp
    | intLit k =>
      simp only [renderRaw] at heq
      have ht : t = Tok.intTok k := ((List.cons.injEq _ _ _ _).mp heq).1.symm
      subst ht
      refine ⟨by simp, by simp, ?_, ?_⟩ <;> simp
    | strLit s =>
      simp only [renderRaw] at heq
      have ht : t = Tok.strTok s := ((List.cons.injEq _ _ _ _).mp heq).1.symm
      subst ht
      refine ⟨by simp, by simp, ?_, ?_⟩ <;> simp
    | identE s =>
      simp only [renderRaw] at heq
      have ht : t = Tok.id s := ((List.cons.injEq _ _ _ _).mp heq).1.symm
      subst ht
      refine ⟨by simp, by simp, ?_, ?_⟩ <;> simp
    | trueLit =>
      simp only [renderRaw] at heq
      have ht : t = Tok.kwTrue := ((List.cons.injEq _ _ _ _).mp heq).1.symm
      subst ht
      refine ⟨by simp, by simp, ?_, ?_⟩ <;> simp
    | falseLit =>
      simp only [renderRaw] at heq
      have ht : t = Tok.kwFalse := ((List.cons.injEq _ _ _ _).mp heq).1.symm
      subst ht
      refine ⟨by simp, by simp, ?_, ?_⟩ <;> simp
    | nullLit =>
      simp only [renderRaw] at heq
      have ht : t = Tok.kwNull := ((List.cons.injEq _ _ _ _).mp heq).1.symm
      subst ht
      refine ⟨by simp, by simp, ?_, ?_⟩ <;> simp
    | subquery s =>
      simp only [renderRaw] at heq
      have ht : t = Tok.lbrace := ((List.cons.injEq _ _ _ _).mp heq).1.symm
      subst ht
      refine ⟨by simp, by simp, ?_, ?_⟩ <;> simp
    | floatLit a b =>
      simp only [renderRaw] at heq
      have ht : t = Tok.floatTok a b := ((List.cons.injEq _ _ _ _).mp heq).1.symm
      subst ht
      refine ⟨by simp, by simp, ?_, ?_⟩ <;> simp
    | callE name args =>
      simp only [renderRaw] at heq
      have ht : t = Tok.id name := ((List.cons.injEq _ _ _ _).mp heq).1.symm
      subst ht
      refine ⟨by simp, by simp, ?_, ?_⟩ <;> simp
    | arrayLit e1 e2 els =>
      simp only [renderRaw] at heq
      have ht : t = Tok.lparen := ((List.cons.injEq _ _ _ _).mp heq).1.symm
      subst ht
      refine ⟨by simp, by simp, ?_, ?_⟩ <;> simp

/-! Exit lemmas for the postfix and binary-operator loops. -/

theorem parseOrLoop_exit (f : Nat) (acc : Expr) (rest : List Tok)
    (hstop : stopAt 1 rest = true) (hf : 1 ≤ f) :
    parseOrLoop f acc rest = some (acc, rest) := by
  obtain ⟨f1, rfl⟩ : ∃ f1, f = f1 + 1 := ⟨f - 1, by omega⟩
  cases rest with
  | nil => rfl
  | cons t r =>
    have ht : t ≠ Tok.kwOr := by
      intro h
      subst h
      simp [stopAt, contLevel] at hstop
    simp [parseOrLoop, ht]

theorem parseAndLoop_exit (f : Nat) (acc : Expr) (rest : List Tok)
    (hstop : stopAt 2 rest = true) (hf : 1 ≤ f) :
    parseAndLoop f acc rest = some (acc, rest) := by
  obtain ⟨f1, rfl⟩ : ∃ f1, f = f1 + 1 := ⟨f - 1, by omega⟩
  cases rest with
  | nil => rfl
  | cons t r =>
    have ht : t ≠ Tok.kwAnd := by
      intro h
      subst h
      simp [stopAt, contLevel] at hstop
    simp [parseAndLoop, ht]

theorem parseAddLoop_exit (f : Nat) (acc : Expr) (rest : List Tok)
    (hstop : stopAt 5 rest = true) (hf : 1 ≤ f) :
    parseAddLoop f acc rest = some (acc, rest) := by
  obtain ⟨f1, rfl⟩ : ∃ f1, f = f1 + 1 := ⟨f - 1, by omega⟩
  cases rest with
  | nil => rfl
  | cons t r =>
    have ht : addOpOf t = none := by
      simp [stopAt] at hstop
      exact addOpOf_eq_none hstop
    simp [parseAddLoop, ht]

theorem parseMulLoop_exit (f : Nat) (acc : Expr) (rest : List Tok)
    (hstop : stopAt 6 rest = true) (hf : 1 ≤ f) :
    parseMulLoop f acc rest = some (acc, rest) := by
  obtain ⟨f1, rfl⟩ : ∃ f1, f = f1 + 1 := ⟨f - 1, by omega⟩
  cases rest with
  | nil => rfl
  | cons t r =>
    have ht : mulOpOf t = none := by
      simp [stopAt] at hstop
      exact mulOpOf_eq_none hstop
    simp [parseMulLoop, ht]

theorem parsePostLoop_exit (f : Nat) (acc : Expr) (rest : List Tok)
    (hstop : stopAt 8 rest = true) (hf : 1 ≤ f) :
    parsePostLoop f acc rest = some (acc, rest) := by
  obtain ⟨f1, rfl⟩ : ∃ f1, f = f1 + 1 := ⟨f - 1, by omega⟩
  cases rest with
  | nil => rfl
  | cons t r =>
    have ht : t ≠ Tok.dotTok := by
      intro h
      subst h
      simp [stopAt, contLevel] at hstop
    have ht2 : t ≠ Tok.lbracket := by
      intro h
      subst h
      simp [stopAt, contLevel] at hstop
    simp [parsePostLoop, ht, ht2]

/-! Entering each level's parser on a parenthesised expression: the
descent reaches the atom parser, which strips the parentheses and
restarts at the top level; the loops above it exit on the stop
condition. -/

theorem parenPrim (e : Expr)
    (hinner : ∀ f rest, stopAt 1 rest = true → 30 * sizeE e + 15 ≤ f →
      parseOrE f (renderRaw e ++ rest) = some (e, rest)) :
    ∀ f rest, 30 * sizeE e + 16 ≤ f →
      parsePrim f (.lparen :: (renderRaw e ++ (.rparen :: rest))) =
        some (e, rest) := by
  intro f rest hf
  obtain ⟨f1, rfl⟩ : ∃ f1, f = f1 + 1 := ⟨f - 1, by omega⟩
  have h1 := hinner f1 (.rparen :: rest) (by simp [stopAt, contLevel])
    (by omega)
  simp [parsePrim, h1]

theorem parenPost (e : Expr)
    (hinner : ∀ f rest, stopAt 1 rest = true → 30 * sizeE e + 15 ≤ f →
      parseOrE f (renderRaw e ++ rest) = some (e, rest)) :
    ∀ f rest, stopAt 8 rest = true → 30 * sizeE e + 17 ≤ f →
      parsePost f (.lparen :: (renderRaw e ++ (.rparen :: rest))) =
        some (e, rest) := by
  intro f rest hstop hf
  obtain ⟨f1, rfl⟩ : ∃ f1, f = f1 + 1 := ⟨f - 1, by omega⟩
  have h1 := parenPrim e hinner f1 rest (by omega)
  have h2 := parsePostLoop_exit f1 e rest hstop (by omega)
  simp [parsePost, h1, h2]

theorem parenUn (e : Expr)
    (hinner : ∀ f rest, stopAt 1 rest = true → 30 * sizeE e + 15 ≤ f →
      parseOrE f (renderRaw e ++ rest) = some (e, rest)) :
    ∀ f rest, stopAt 8 rest = true → 30 * sizeE e + 18 ≤ f →
      parseUn f (.lparen :: (renderRaw e ++ (.rparen :: rest))) =
        some (e, rest) := by
  intro f rest hstop hf
  obtain ⟨f1, rfl⟩ : ∃ f1, f = f1 + 1 := ⟨f - 1, by omega⟩
  have h1 := parenPost e hinner f1 rest hstop (by omega)
  simp [parseUn, h1]

theorem parenMul (e : Expr)
    (hinner : ∀ f rest, stopAt 1 rest = true → 30 * sizeE e + 15 ≤ f →
      parseOrE f (renderRaw e ++ rest) = some (e, rest)) :
    ∀ f rest, stopAt 6 rest = true → 30 * sizeE e + 19 ≤ f →
      parseMulE f (.lparen :: (renderRaw e ++ (.rparen :: rest))) =
        some (e, rest) := by
  intro f rest hstop hf
  obtain ⟨f1, rfl⟩ : ∃ f1, f = f1 + 1 := ⟨f - 1, by omega⟩
  have h1 := parenUn e hinner f1 rest (stopAt_mono (by omega) hstop) (by omega)
  have h2 := parseMulLoop_exit f1 e rest hstop (by omega)
  simp [parseMulE, h1, h2]

theorem parenAdd (e : Expr)
    (hinner : ∀ f rest, stopAt 1 rest = true → 30 * sizeE e + 15 ≤ f →
      parseOrE f (renderRaw e ++ rest) = some (e, rest)) :
    ∀ f rest, stopAt 5 rest = true → 30 * sizeE e + 20 ≤ f →
      parseAddE f (.lparen :: (renderRaw e ++ (.rparen :: rest))) =
        some (e, rest) := by
  intro f rest hstop hf
  obtain ⟨f1, rfl⟩ : ∃ f1, f = f1 + 1 := ⟨f - 1, by omega⟩
  have h1 := parenMul e hinner f1 rest (stopAt_mono (by omega) hstop) (by omega)
  have h2 := parseAddLoop_exit f1 e rest hstop (by omega)
  simp [parseAddE, h1, h2]

theorem parenCmp (e : Expr)
    (hinner : ∀ f rest, stopAt 1 rest = true → 30 * sizeE e + 15 ≤ f →
      parseOrE f (renderRaw e ++ rest) = some (e, rest)) :
    ∀ f rest, stopAt 4 rest = true → 30 * sizeE e + 21 ≤ f →
      parseCmpE f (.lparen :: (renderRaw e ++ (.rparen :: rest))) =
        some (e, rest) := by
  intro f rest hstop hf
  obtain ⟨f1, rfl⟩ : ∃ f1, f = f1 + 1 := ⟨f - 1, by omega⟩
  have h1 := parenAdd e hinner f1 rest (stopAt_mono (by omega) hstop) (by omega)
  cases rest with
  | nil => simp [parseCmpE, h1]
  | cons t r =>
    have ht : cmpOpOf t = none := by
      simp [stopAt] at hstop
      exact cmpOpOf_eq_none hstop
    simp [parseCmpE, h1, ht]

theorem parenNot (e : Expr)
    (hinner : ∀ f rest, stopAt 1 rest = true → 30 * sizeE e + 15 ≤ f →
      parseOrE f (renderRaw e ++ rest) = some (e, rest)) :
    ∀ f rest, stopAt 4 rest = true → 30 * sizeE e + 22 ≤ f →
      parseNotE f (.lparen :: (renderRaw e ++ (.rparen :: rest))) =
        some (e, rest) := by
  intro f rest hstop hf
  obtain ⟨f1, rfl⟩ : ∃ f1, f = f1 + 1 := ⟨f - 1, by omega⟩
  have h1 := parenCmp e hinner f1 rest hstop (by omega)
  simp [parseNotE, h1]

theorem parenAnd (e : Expr)
    (hinner : ∀ f rest, stopAt 1 rest = true → 30 * sizeE e + 15 ≤ f →
      parseOrE f (renderRaw e ++ rest) = some (e, rest)) :
    ∀ f rest, stopAt 2 rest = true → 30 * sizeE e + 23 ≤ f →
      parseAndE f (.lparen :: (renderRaw e ++ (.rparen :: rest))) =
        some (e, rest) := by
  intro f rest hstop hf
  obtain ⟨f1, rfl⟩ : ∃ f1, f = f1 + 1 := ⟨f - 1, by omega⟩
  have h1 := parenNot e hinner f1 rest (stopAt_mono (by omega) hstop) (by omega)
  have h2 := parseAndLoop_exit f1 e rest hstop (by omega)
  simp [parseAndE, h1, h2]

/-! Left spines: a chain of left-associated binary nodes of one level
is flattened into its leftmost operand and the list of subsequent
(operator, operand) steps, mirroring the parser's loops. -/

inductive PostItem where
  | dotItem (f : String)
  | idxItem (i : Expr)

def orSpine : Expr → Expr × List Expr
  | .orE l r => ((orSpine l).1, (orSpine l).2 ++ [r])
  | e => (e, [])

def andSpine : Expr → Expr × List Expr
  | .andE l r => ((andSpine l).1, (andSpine l).2 ++ [r])
  | e => (e, [])

def addSpine : Expr → Expr × List (AddOp × Expr)
  | .addE op l r => ((addSpine l).1, (addSpine l).2 ++ [(op, r)])
  | e => (e, [])

def mulSpine : Expr → Expr × List (MulOp × Expr)
  | .mulE op l r => ((mulSpine l).1, (mulSpine l).2 ++ [(op, r)])
  | e => (e, [])

def postSpine : Expr → Expr × List PostItem
  | .memberE b f => ((postSpine b).1, (postSpine b).2 ++ [.dotItem f])
  | .indexE b i => ((postSpine b).1, (postSpine b).2 ++ [.idxItem i])
  | e => (e, [])

def orOpsRender : List Expr → List Tok
  | [] => []
  | o :: os => .kwOr :: (wrapTok 2 o (renderRaw o) ++ orOpsRender os)

def andOpsRender : List Expr → List Tok
  | [] => []
  | o :: os => .kwAnd :: (wrapTok 3 o (renderRaw o) ++ andOpsRender os)

def addOpsRender : List (AddOp × Expr) → List Tok
  | [] => []
  | p :: os =>
    renderAddOp p.1 :: (wrapTok 6 p.2 (renderRaw p.2) ++ addOpsRender os)

def mulOpsRender : List (MulOp × Expr) → List Tok
  | [] => []
  | p :: os =>
    renderMulOp p.1 :: (wrapTok 7 p.2 (renderRaw p.2) ++ mulOpsRender os)

def postItemsRender : List PostItem → List Tok
  | [] => []
  | .dotItem s :: rest => .dotTok :: .id s :: postItemsRender rest
  | .idxItem i :: rest =>
    .lbracket :: (renderRaw i ++ (.rbracket :: postItemsRender rest))

def orOpsSize : List Expr → Nat
  | [] => 0
  | o :: os => 1 + sizeE o + orOpsSize os

def andOpsSize : List Expr → Nat
  | [] => 0
  | o :: os => 1 + sizeE o + andOpsSize os

def addOpsSize : List (AddOp × Expr) → Nat
  | [] => 0
  | p :: os => 1 + sizeE p.2 + addOpsSize os

def mulOpsSize : List (MulOp × Expr) → Nat
  | [] => 0
  | p :: os => 1 + sizeE p.2 + mulOpsSize os

def postItemsSize : List PostItem → Nat
  | [] => 0
  | .dotItem _ :: rest => 1 + postItemsSize rest
  | .idxItem i :: rest => 1 + sizeE i + postItemsSize rest

def addStep (acc : Expr) (p : AddOp × Expr) : Expr := .addE p.1 acc p.2

def mulStep (acc : Expr) (p : MulOp × Expr) : Expr := .mulE p.1 acc p.2

def postStep (acc : Expr) : PostItem → Expr
  | .dotItem s => .memberE acc s
  | .idxItem i => .indexE acc i

theorem orOpsRender_append (xs ys : List Expr) :
    orOpsRender (xs ++ ys) = orOpsRender xs ++ orOpsRender ys := by
  induction xs with
  | nil => simp [orOpsRender]
  | cons o os ih => simp [orOpsRender, ih]

theorem andOpsRender_append (xs ys : List Expr) :
    andOpsRender (xs ++ ys) = andOpsRender xs ++ andOpsRender ys := by
  induction xs with
  | nil => simp [andOpsRender]
  | cons o os ih => simp [andOpsRender, ih]

theorem addOpsRender_append (xs ys : List (AddOp × Expr)) :
    addOpsRender (xs ++ ys) = addOpsRender xs ++ addOpsRender ys := by
  induction xs with
  | nil => simp [addOpsRender]
  | cons o os ih => simp [addOpsRender, ih]

theorem mulOpsRender_append (xs ys : List (MulOp × Expr)) :
    mulOpsRender (xs ++ ys) = mulOpsRender xs ++ mulOpsRender ys := by
  induction xs with
  | nil => simp [mulOpsRender]
  | cons o os ih => simp [mulOpsRender, ih]

theorem postItemsRender_append (xs ys : List PostItem) :
    postItemsRender (xs ++ ys) = postItemsRender xs ++ postItemsRender ys := by
  induction xs with
  | nil => simp [postItemsRender]
  | cons o os ih =>
    cases o <;> simp [postItemsRender, ih]

theorem orOpsSize_append (xs ys : List Expr) :
    orOpsSize (xs ++ ys) = orOpsSize xs + orOpsSize ys := by
  induction xs with
  | nil => simp [orOpsSize]
  | cons o os ih => simp [orOpsSize, ih]; omega

theorem andOpsSize_append (xs ys : List Expr) :
    andOpsSize (xs ++ ys) = andOpsSize xs + andOpsSize ys := by
  induction xs with
  | nil => simp [andOpsSize]
  | cons o os ih => simp [andOpsSize, ih]; omega

theorem addOpsSize_append (xs ys : List (AddOp × Expr)) :
    addOpsSize (xs ++ ys) = addOpsSize xs + addOpsSize ys := by
  induction xs with
  | nil => simp [addOpsSize]
  | cons o os ih => simp [addOpsSize, ih]; omega

theorem mulOpsSize_append (xs ys : List (MulOp × Expr)) :
    mulOpsSize (xs ++ ys) = mulOpsSize xs + mulOpsSize ys := by
  induction xs with
  | nil => simp [mulOpsSize]
  | cons o os ih => simp [mulOpsSize, ih]; omega

theorem postItemsSize_append (xs ys : List PostItem) :
    postItemsSize (xs ++ ys) = postItemsSize xs + postItemsSize ys := by
  induction xs with
  | nil => simp [postItemsSize]
  | cons o os ih =>
    cases o <;> simp [postItemsSize, ih] <;> omega

theorem orOpsSize_mem {o : Expr} {ops : List Expr} (h : o ∈ ops) :
    1 + sizeE o ≤ orOpsSize ops := by
  induction ops with
  | nil => cases h
  | cons x xs ih =>
    rcases List.mem_cons.mp h with rfl | h2
    · simp only [orOpsSize]
      omega
    · have := ih h2
      simp only [orOpsSize]
      omega

theorem andOpsSize_mem {o : Expr} {ops : List Expr} (h : o ∈ ops) :
    1 + sizeE o ≤ andOpsSize ops := by
  induction ops with
  | nil => cases h
  | cons x xs ih =>
    rcases List.mem_cons.mp h with rfl | h2
    · simp only [andOpsSize]
      omega
    · have := ih h2
      simp only [andOpsSize]
      omega

theorem addOpsSize_mem {p : AddOp × Expr} {ops : List (AddOp × Expr)}
    (h : p ∈ ops) : 1 + sizeE p.2 ≤ addOpsSize ops := by
  induction ops with
  | nil => cases h
  | cons x xs ih =>
    rcases List.mem_cons.mp h with rfl | h2
    · simp only [addOpsSize]
      omega
    · have := ih h2
      simp only [addOpsSize]
      omega

theorem mulOpsSize_mem {p : MulOp × Expr} {ops : List (MulOp × Expr)}
    (h : p ∈ ops) : 1 + sizeE p.2 ≤ mulOpsSize ops := by
  induction ops with
  | nil => cases h
  | cons x xs ih =>
    rcases List.mem_cons.mp h with rfl | h2
    · simp only [mulOpsSize]
      omega
    · have := ih h2
      simp only [mulOpsSize]
      omega

theorem postItemsSize_mem {i : Expr} {items : List PostItem}
    (h : PostItem.idxItem i ∈ items) : 1 + sizeE i ≤ postItemsSize items := by
  induction items with
  | nil => cases h
  | cons x xs ih =>
    rcases List.mem_cons.mp h with heq | h2
    · rw [← heq]
      simp only [postItemsSize]
      omega
    · have := ih h2
      cases x <;> simp only [postItemsSize] <;> omega

theorem wrapTok_one (e : Expr) (r : List Tok) : wrapTok 1 e r = r := by
  unfold wrapTok
  rw [if_pos]
  cases e <;> simp [Expr.prec]

/-- The or-spine: rendering, size, head level and refolding. -/
theorem orSpine_facts : ∀ (n : Nat) (e : Expr), sizeE e ≤ n →
    renderRaw e = renderRaw (orSpine e).1 ++ orOpsRender (orSpine e).2 ∧
      sizeE e = sizeE (orSpine e).1 + orOpsSize (orSpine e).2 ∧
      (orSpine e).1.prec ≠ 1 ∧
      (orSpine e).2.foldl Expr.orE (orSpine e).1 = e := by
  intro n
  induction n with
  | zero =>
    intro e he
    cases e <;> simp [sizeE] at he
  | succ m ih =>
    intro e he
    cases e
    case orE l r =>
      have hl : sizeE l ≤ m := by simp [sizeE] at he; omega
      obtain ⟨ihr, ihs, ihp, ihf⟩ := ih l hl
      refine ⟨?_, ?_, ?_, ?_⟩
      · simp only [renderRaw, orSpine]
        rw [wrapTok_one, ihr, orOpsRender_append]
        simp [orOpsRender, List.append_assoc]
      · simp only [sizeE, orSpine]
        rw [orOpsSize_append]
        simp only [orOpsSize]
        omega
      · simpa [orSpine] using ihp
      · simp only [orSpine]
        rw [List.foldl_append, ihf]
        simp [List.foldl]
    all_goals refine ⟨?_, ?_, ?_, ?_⟩ <;>
      simp [orSpine, orOpsRender, orOpsSize, Expr.prec]

/-- The and-spine of an expression rendered at level 2. -/
theorem andSpine_facts : ∀ (n : Nat) (e : Expr), sizeE e ≤ n →
    wrapTok 2 e (renderRaw e) =
        wrapTok 2 (andSpine e).1 (renderRaw (andSpine e).1) ++
          andOpsRender (andSpine e).2 ∧
      sizeE e = sizeE (andSpine e).1 + andOpsSize (andSpine e).2 ∧
      (andSpine e).1.prec ≠ 2 ∧
      (andSpine e).2.foldl Expr.andE (andSpine e).1 = e := by
  intro n
  induction n with
  | zero =>
    intro e he
    cases e <;> simp [sizeE] at he
  | succ m ih =>
    intro e he
    cases e
    case andE l r =>
      have hl : sizeE l ≤ m := by simp [sizeE] at he; omega
      obtain ⟨ihr, ihs, ihp, ihf⟩ := ih l hl
      refine ⟨?_, ?_, ?_, ?_⟩
      · have hbare : wrapTok 2 (Expr.andE l r) (renderRaw (Expr.andE l r)) =
            renderRaw (Expr.andE l r) := by
          unfold wrapTok
          rw [if_pos]
          simp [Expr.prec]
        rw [hbare]
        simp only [renderRaw, andSpine]
        rw [ihr, andOpsRender_append]
        simp [andOpsRender, List.append_assoc]
      · simp only [sizeE, andSpine]
        rw [andOpsSize_append]
        simp only [andOpsSize]
        omega
      · simpa [andSpine] using ihp
      · simp only [andSpine]
        rw [List.foldl_append, ihf]
        simp [List.foldl]
    all_goals refine ⟨?_, ?_, ?_, ?_⟩ <;>
      simp [andSpine, andOpsRender, andOpsSize, Expr.prec]

/-- The additive spine of an expression rendered at level 5. -/
theorem addSpine_facts : ∀ (n : Nat) (e : Expr), sizeE e ≤ n →
    wrapTok 5 e (renderRaw e) =
        wrapTok 5 (addSpine e).1 (renderRaw (addSpine e).1) ++
          addOpsRender (addSpine e).2 ∧
      sizeE e = sizeE (addSpine e).1 + addOpsSize (addSpine e).2 ∧
      (addSpine e).1.prec ≠ 5 ∧
      (addSpine e).2.foldl addStep (addSpine e).1 = e := by
  intro n
  induction n with
  | zero =>
    intro e he
    cases e <;> simp [sizeE] at he
  | succ m ih =>
    intro e he
    cases e
    case addE op l r =>
      have hl : sizeE l ≤ m := by simp [sizeE] at he; omega
      obtain ⟨ihr, ihs, ihp, ihf⟩ := ih l hl
      refine ⟨?_, ?_, ?_, ?_⟩
      · have hbare : wrapTok 5 (Expr.addE op l r) (renderRaw (Expr.addE op l r)) =
            renderRaw (Expr.addE op l r) := by
          unfold wrapTok
          rw [if_pos]
          simp [Expr.prec]
        rw [hbare]
        simp only [renderRaw, addSpine]
        rw [ihr, addOpsRender_append]
        simp [addOpsRender, List.append_assoc]
      · simp only [sizeE, addSpine]
        rw [addOpsSize_append]
        simp only [addOpsSize]
        omega
      · simpa [addSpine] using ihp
      · simp only [addSpine]
        rw [List.foldl_append, ihf]
        simp [List.foldl, addStep]
    all_goals refine ⟨?_, ?_, ?_, ?_⟩ <;>
      simp [addSpine, addOpsRender, addOpsSize, Expr.prec]

/-- The multiplicative spine of an expression rendered at level 6. -/
theorem mulSpine_facts : ∀ (n : Nat) (e : Expr), sizeE e ≤ n →
    wrapTok 6 e (renderRaw e) =
        wrapTok 6 (mulSpine e).1 (renderRaw (mulSpine e).1) ++
          mulOpsRender (mulSpine e).2 ∧
      sizeE e = sizeE (mulSpine e).1 + mulOpsSize (mulSpine e).2 ∧
      (mulSpine e).1.prec ≠ 6 ∧
      (mulSpine e).2.foldl mulStep (mulSpine e).1 = e := by
  intro n
  induction n with
  | zero =>
    intro e he
    cases e <;> simp [sizeE] at he
  | succ m ih =>
    intro e he
    cases e
    case mulE op l r =>
      have hl : sizeE l ≤ m := by simp [sizeE] at he; omega
      obtain ⟨ihr, ihs, ihp, ihf⟩ := ih l hl
      refine ⟨?_, ?_, ?_, ?_⟩
      · have hbare : wrapTok 6 (Expr.mulE op l r) (renderRaw (Expr.mulE op l r)) =
            renderRaw (Expr.mulE op l r) := by
          unfold wrapTok
          rw [if_pos]
          simp [Expr.prec]
        rw [hbare]
        simp only [renderRaw, mulSpine]
        rw [ihr, mulOpsRender_append]
        simp [mulOpsRender, List.append_assoc]
      · simp only [sizeE, mulSpine]
        rw [mulOpsSize_append]
        simp only [mulOpsSize]
        omega
      · simpa [mulSpine] using ihp
      · simp only [mulSpine]
        rw [List.foldl_append, ihf]
        simp [List.foldl, mulStep]
    all_goals refine ⟨?_, ?_, ?_, ?_⟩ <;>
      simp [mulSpine, mulOpsRender, mulOpsSize, Expr.prec]

/-- The member/index spine of an expression rendered at level 8. -/
theorem postSpine_facts : ∀ (n : Nat) (e : Expr), sizeE e ≤ n →
    wrapTok 8 e (renderRaw e) =
        wrapTok 8 (postSpine e).1 (renderRaw (postSpine e).1) ++
          postItemsRender (postSpine e).2 ∧
      sizeE e = sizeE (postSpine e).1 + postItemsSize (postSpine e).2 ∧
      (postSpine e).1.prec ≠ 8 ∧
      (postSpine e).2.foldl postStep (postSpine e).1 = e := by
  intro n
  induction n with
  | zero =>
    intro e he
    cases e <;> simp [sizeE] at he
  | succ m ih =>
    intro e he
    cases e
    case memberE b fld =>
      have hb : sizeE b ≤ m := by simp [sizeE] at he; omega
      obtain ⟨ihr, ihs, ihp, ihf⟩ := ih b hb
      refine ⟨?_, ?_, ?_, ?_⟩
      · have hbare : wrapTok 8 (Expr.memberE b fld)
            (renderRaw (Expr.memberE b fld)) =
            renderRaw (Expr.memberE b fld) := by
          unfold wrapTok
          rw [if_pos]
          simp [Expr.prec]
        rw [hbare]
        simp only [renderRaw, postSpine]
        rw [ihr, postItemsRender_append]
        simp [postItemsRender, List.append_assoc]
      · simp only [sizeE, postSpine]
        rw [postItemsSize_append]
        simp only [postItemsSize]
        omega
      · simpa [postSpine] using ihp
      · simp only [postSpine]
        rw [List.foldl_append, ihf]
        simp [List.foldl, postStep]
    case indexE b i =>
      have hb : sizeE b ≤ m := by simp [sizeE] at he; omega
      obtain ⟨ihr, ihs, ihp, ihf⟩ := ih b hb
      refine ⟨?_, ?_, ?_, ?_⟩
      · have hbare : wrapTok 8 (Expr.indexE b i)
            (renderRaw (Expr.indexE b i)) =
            renderRaw (Expr.indexE b i) := by
          unfold wrapTok
          rw [if_pos]
          simp [Expr.prec]
        rw [hbare]
        simp only [renderRaw, postSpine]
        rw [ihr, postItemsRender_append]
        simp [postItemsRender, List.append_assoc]
      · simp only [sizeE, postSpine]
        rw [postItemsSize_append]
        simp only [postItemsSize]
        omega
      · simpa [postSpine] using ihp
      · simp only [postSpine]
        rw [List.foldl_append, ihf]
        simp [List.foldl, postStep]
    all_goals refine ⟨?_, ?_, ?_, ?_⟩ <;>
      simp [postSpine, postItemsRender, postItemsSize, Expr.prec]

theorem stopAt_orOps (os : List Expr) (rest : List Tok)
    (h : stopAt 1 rest = true) : stopAt 2 (orOpsRender os ++ rest) = true := by
  cases os with
  | nil => simpa [orOpsRender] using stopAt_mono (by omega) h
  | cons o os2 => simp [orOpsRender, stopAt, contLevel]

theorem stopAt_andOps (os : List Expr) (rest : List Tok)
    (h : stopAt 2 rest = true) : stopAt 3 (andOpsRender os ++ rest) = true := by
  cases os with
  | nil => simpa [andOpsRender] using stopAt_mono (by omega) h
  | cons o os2 => simp [andOpsRender, stopAt, contLevel]

theorem stopAt_addOps (os : List (AddOp × Expr)) (rest : List Tok)
    (h : stopAt 5 rest = true) : stopAt 6 (addOpsRender os ++ rest) = true := by
  cases os with
  | nil => simpa [addOpsRender] using stopAt_mono (by omega) h
  | cons o os2 => simp [addOpsRender, stopAt, contLevel_renderAddOp]

theorem stopAt_mulOps (os : List (MulOp × Expr)) (rest : List Tok)
    (h : stopAt 6 rest = true) : stopAt 7 (mulOpsRender os ++ rest) = true := by
  cases os with
  | nil => simpa [mulOpsRender] using stopAt_mono (by omega) h
  | cons o os2 => simp [mulOpsRender, stopAt, contLevel_renderMulOp]

/-! Correctness of the binary-operator and postfix loops over a spine
list: each subsequent operand is consumed and folded to the left. -/

theorem parseOrLoop_ok (ops : List Expr)
    (helem : ∀ o ∈ ops, ∀ f rest, stopAt 2 rest = true →
      30 * sizeE o + 25 ≤ f →
      parseAndE f (wrapTok 2 o (renderRaw o) ++ rest) = some (o, rest)) :
    ∀ f acc rest, stopAt 1 rest = true → 30 * orOpsSize ops + 2 ≤ f →
      parseOrLoop f acc (orOpsRender ops ++ rest) =
        some (ops.foldl Expr.orE acc, rest) := by
  induction ops with
  | nil =>
    intro f acc rest hstop hf
    simpa [orOpsRender] using parseOrLoop_exit f acc rest hstop (by omega)
  | cons o os ih =>
    intro f acc rest hstop hf
    obtain ⟨f1, rfl⟩ : ∃ f1, f = f1 + 1 := ⟨f - 1, by
      simp only [orOpsSize] at hf
      omega⟩
    simp only [orOpsSize] at hf
    have h1 := helem o (by simp) f1 (orOpsRender os ++ rest)
      (stopAt_orOps os rest hstop) (by omega)
    have h2 := ih (by intro x hx; exact helem x (by simp [hx])) f1
      (Expr.orE acc o) rest hstop (by omega)
    simp only [orOpsRender, List.cons_append, List.append_assoc]
    simp [parseOrLoop, List.append_assoc] at h1 h2 ⊢
    rw [h1]
    exact h2

theorem parseAndLoop_ok (ops : List Expr)
    (helem : ∀ o ∈ ops, ∀ f rest, stopAt 3 rest = true →
      30 * sizeE o + 25 ≤ f →
      parseNotE f (wrapTok 3 o (renderRaw o) ++ rest) = some (o, rest)) :
    ∀ f acc rest, stopAt 2 rest = true → 30 * andOpsSize ops + 2 ≤ f →
      parseAndLoop f acc (andOpsRender ops ++ rest) =
        some (ops.foldl Expr.andE acc, rest) := by
  induction ops with
  | nil =>
    intro f acc rest hstop hf
    simpa [andOpsRender] using parseAndLoop_exit f acc rest hstop (by omega)
  | cons o os ih =>
    intro f acc rest hstop hf
    obtain ⟨f1, rfl⟩ : ∃ f1, f = f1 + 1 := ⟨f - 1, by
      simp only [andOpsSize] at hf
      omega⟩
    simp only [andOpsSize] at hf
    have h1 := helem o (by simp) f1 (andOpsRender os ++ rest)
      (stopAt_andOps os rest hstop) (by omega)
    have h2 := ih (by intro x hx; exact helem x (by simp [hx])) f1
      (Expr.andE acc o) rest hstop (by omega)
    simp only [andOpsRender, List.cons_append, List.append_assoc]
    simp [parseAndLoop, List.append_assoc] at h1 h2 ⊢
    rw [h1]
    exact h2

theorem parseAddLoop_ok (ops : List (AddOp × Expr))
    (helem : ∀ p ∈ ops, ∀ f rest, stopAt 6 rest = true →
      30 * sizeE p.2 + 25 ≤ f →
      parseMulE f (wrapTok 6 p.2 (renderRaw p.2) ++ rest) = some (p.2, rest)) :
    ∀ f acc rest, stopAt 5 rest = true → 30 * addOpsSize ops + 2 ≤ f →
      parseAddLoop f acc (addOpsRender ops ++ rest) =
        some (ops.foldl addStep acc, rest) := by
  induction ops with
  | nil =>
    intro f acc rest hstop hf
    simpa [addOpsRender] using parseAddLoop_exit f acc rest hstop (by omega)
  | cons o os ih =>
    intro f acc rest hstop hf
    obtain ⟨f1, rfl⟩ : ∃ f1, f = f1 + 1 := ⟨f - 1, by
      simp only [addOpsSize] at hf
      omega⟩
    simp only [addOpsSize] at hf
    have h1 := helem o (by simp) f1 (addOpsRender os ++ rest)
      (stopAt_addOps os rest hstop) (by omega)
    have h2 := ih (by intro x hx; exact helem x (by simp [hx])) f1
      (addStep acc o) rest hstop (by omega)
    simp only [addOpsRender, List.cons_append, List.append_assoc]
    simp [parseAddLoop, addOpOf_renderAddOp, addStep, List.append_assoc]
      at h1 h2 ⊢
    rw [h1]
    exact h2

theorem parseMulLoop_ok (ops : List (MulOp × Expr))
    (helem : ∀ p ∈ ops, ∀ f rest, stopAt 7 rest = true →
      30 * sizeE p.2 + 25 ≤ f →
      parseUn f (wrapTok 7 p.2 (renderRaw p.2) ++ rest) = some (p.2, rest)) :
    ∀ f acc rest, stopAt 6 rest = true → 30 * mulOpsSize ops + 2 ≤ f →
      parseMulLoop f acc (mulOpsRender ops ++ rest) =
        some (ops.foldl mulStep acc, rest) := by
  induction ops with
  | nil =>
    intro f acc rest hstop hf
    simpa [mulOpsRender] using parseMulLoop_exit f acc rest hstop (by omega)
  | cons o os ih =>
    intro f acc rest hstop hf
    obtain ⟨f1, rfl⟩ : ∃ f1, f = f1 + 1 := ⟨f - 1, by
      simp only [mulOpsSize] at hf
      omega⟩
    simp only [mulOpsSize] at hf
    have h1 := helem o (by simp) f1 (mulOpsRender os ++ rest)
      (stopAt_mulOps os rest hstop) (by omega)
    have h2 := ih (by intro x hx; exact helem x (by simp [hx])) f1
      (mulStep acc o) rest hstop (by omega)
    simp only [mulOpsRender, List.cons_append, List.append_assoc]
    simp [parseMulLoop, mulOpOf_renderMulOp, mulStep, List.append_assoc]
      at h1 h2 ⊢
    rw [h1]
    exact h2

theorem parsePostLoop_ok (items : List PostItem)
    (helem : ∀ i, PostItem.idxItem i ∈ items → ∀ f rest,
      stopAt 1 rest = true → 30 * sizeE i + 15 ≤ f →
      parseOrE f (renderRaw i ++ rest) = some (i, rest)) :
    ∀ f acc rest, stopAt 8 rest = true → 30 * postItemsSize items + 2 ≤ f →
      parsePostLoop f acc (postItemsRender items ++ rest) =
        some (items.foldl postStep acc, rest) := by
  induction items with
  | nil =>
    intro f acc rest hstop hf
    simpa [postItemsRender] using parsePostLoop_exit f acc rest hstop (by omega)
  | cons it items2 ih =>
    intro f acc rest hstop hf
    obtain ⟨f1, rfl⟩ : ∃ f1, f = f1 + 1 := ⟨f - 1, by
      cases it <;> simp only [postItemsSize] at hf <;> omega⟩
    cases it with
    | dotItem s =>
      simp only [postItemsSize] at hf
      have h2 := ih (by intro x hx; exact helem x (by simp [hx])) f1
        (Expr.memberE acc s) rest hstop (by omega)
      simp only [postItemsRender, List.cons_append]
      simp [parsePostLoop, postStep] at h2 ⊢
      rw [h2]
    | idxItem i =>
      simp only [postItemsSize] at hf
      have h1 := helem i (by simp) f1
        (.rbracket :: (postItemsRender items2 ++ rest))
        (by simp [stopAt, contLevel]) (by omega)
      have h2 := ih (by intro x hx; exact helem x (by simp [hx])) f1
        (Expr.indexE acc i) rest hstop (by omega)
      simp only [postItemsRender, List.cons_append, List.append_assoc]
      simp [parsePostLoop, postStep, List.append_assoc] at h1 h2 ⊢
      rw [h1]
      exact h2

/-! The per-level parse statements.  A level-p statement says: the
parser of level p, on the rendering of an expression printable at
level p followed by input that cannot continue level p, returns the
expression and that input, at every sufficient fuel.  The `PArg`
forms allow the position to force parentheses. -/

def PPrimS (e : Expr) : Prop :=
  ∀ f rest, 9 ≤ e.prec → stopAt 9 rest = true → 30 * sizeE e + 7 ≤ f →
    parsePrim f (renderRaw e ++ rest) = some (e, rest)

def PPostS (e : Expr) : Prop :=
  ∀ f rest, 8 ≤ e.prec → stopAt 8 rest = true → 30 * sizeE e + 8 ≤ f →
    parsePost f (renderRaw e ++ rest) = some (e, rest)

def PUnS (e : Expr) : Prop :=
  ∀ f rest, 7 ≤ e.prec → stopAt 7 rest = true → 30 * sizeE e + 9 ≤ f →
    parseUn f (renderRaw e ++ rest) = some (e, rest)

def PMulS (e : Expr) : Prop :=
  ∀ f rest, 6 ≤ e.prec → stopAt 6 rest = true → 30 * sizeE e + 10 ≤ f →
    parseMulE f (renderRaw e ++ rest) = some (e, rest)

def PAddS (e : Expr) : Prop :=
  ∀ f rest, 5 ≤ e.prec → stopAt 5 rest = true → 30 * sizeE e + 11 ≤ f →
    parseAddE f (renderRaw e ++ rest) = some (e, rest)

def PCmpS (e : Expr) : Prop :=
  ∀ f rest, 4 ≤ e.prec → stopAt 4 rest = true → 30 * sizeE e + 12 ≤ f →
    parseCmpE f (renderRaw e ++ rest) = some (e, rest)

def PNotS (e : Expr) : Prop :=
  ∀ f rest, 3 ≤ e.prec → stopAt 3 rest = true → 30 * sizeE e + 13 ≤ f →
    parseNotE f (renderRaw e ++ rest) = some (e, rest)

def PAndS (e : Expr) : Prop :=
  ∀ f rest, 2 ≤ e.prec → stopAt 2 rest = true → 30 * sizeE e + 14 ≤ f →
    parseAndE f (renderRaw e ++ rest) = some (e, rest)

def POrS (e : Expr) : Prop :=
  ∀ f rest, stopAt 1 rest = true → 30 * sizeE e + 15 ≤ f →
    parseOrE f (renderRaw e ++ rest) = some (e, rest)

def PArg2S (e : Expr) : Prop :=
  ∀ f rest, stopAt 2 rest = true → 30 * sizeE e + 25 ≤ f →
    parseAndE f (wrapTok 2 e (renderRaw e) ++ rest) = some (e, rest)

def PArg3S (e : Expr) : Prop :=
  ∀ f rest, stopAt 3 rest = true → 30 * sizeE e + 25 ≤ f →
    parseNotE f (wrapTok 3 e (renderRaw e) ++ rest) = some (e, rest)

def PArg5S (e : Expr) : Prop :=
  ∀ f rest, stopAt 5 rest = true → 30 * sizeE e + 25 ≤ f →
    parseAddE f (wrapTok 5 e (renderRaw e) ++ rest) = some (e, rest)

def PArg6S (e : Expr) : Prop :=
  ∀ f rest, stopAt 6 rest = true → 30 * sizeE e + 25 ≤ f →
    parseMulE f (wrapTok 6 e (renderRaw e) ++ rest) = some (e, rest)

def PArg7S (e : Expr) : Prop :=
  ∀ f rest, stopAt 7 rest = true → 30 * sizeE e + 25 ≤ f →
    parseUn f (wrapTok 7 e (renderRaw e) ++ rest) = some (e, rest)

def PColS (c : SelCol) : Prop :=
  ∀ f rest, stopAt 1 rest = true → rest.head? ≠ some Tok.kwAs →
    30 * sizeCol c + 15 ≤ f →
    parseCol f (renderCol c ++ rest) = some (c, rest)

def PColsS (cs : SelCols) : Prop :=
  ∀ f rest, stopAt 1 rest = true → rest.head? ≠ some Tok.kwAs →
    rest.head? ≠ some Tok.commaTok → 30 * sizeCols cs + 16 ≤ f →
    parseCols f (renderCols cs ++ rest) = some (cs, rest)

def PElemsS (es : Elems) : Prop :=
  ∀ f rest, 30 * sizeElems es + 15 ≤ f →
    parseElems f (renderElems es ++ (.rparen :: rest)) = some (es, rest)

def PArgsCS (a : ArgList) : Prop :=
  ∀ f rest, 30 * sizeArgs a + 15 ≤ f →
    parseArgsClosed f (renderArgs a ++ (.rparen :: rest)) = some (a, rest)

def PArgsTS (a : ArgList) : Prop :=
  ∀ f rest, 30 * sizeArgs a + 15 ≤ f →
    parseArgsTail f (renderArgsTail a ++ (.rparen :: rest)) = some (a, rest)

def PWhereS (o : OptExpr) : Prop :=
  ∀ f rest, stopAt 1 rest = true → rest.head? ≠ some Tok.kwWhere →
    30 * sizeOptE o + 15 ≤ f →
    parseWhereClause f (renderWhereClause o ++ rest) = some (o, rest)

def PGroupS (o : OptExpr) : Prop :=
  ∀ f rest, stopAt 1 rest = true → rest.head? ≠ some Tok.kwGroup →
    30 * sizeOptE o + 15 ≤ f →
    parseGroupClause f (renderGroupClause o ++ rest) = some (o, rest)

def POrderS (o : OptOrder) : Prop :=
  ∀ f rest, stopAt 1 rest = true → rest.head? ≠ some Tok.kwOrder →
    rest.head? ≠ some Tok.kwDesc → 30 * sizeOptOrd o + 15 ≤ f →
    parseOrderClause f (renderOrderClause o ++ rest) = some (o, rest)

/-- Input that cannot extend any trailing clause of a SELECT. -/
def SelStop (rest : List Tok) : Prop :=
  stopAt 1 rest = true ∧ rest.head? ≠ some Tok.kwWhere ∧
    rest.head? ≠ some Tok.kwGroup ∧ rest.head? ≠ some Tok.kwOrder ∧
    rest.head? ≠ some Tok.kwDesc ∧ rest.head? ≠ some Tok.kwLimit

def PSelS (s : SelectAst) : Prop :=
  ∀ f rest, SelStop rest → 30 * sizeSel s + 15 ≤ f →
    parseSelect f (renderSelect s ++ rest) = some (s, rest)

structure ExprBlock (e : Expr) : Prop where
  prim : PPrimS e
  post : PPostS e
  un : PUnS e
  mul : PMulS e
  add : PAddS e
  cmp : PCmpS e
  pnot : PNotS e
  pand : PAndS e
  por : POrS e
  arg2 : PArg2S e
  arg3 : PArg3S e
  arg5 : PArg5S e
  arg6 : PArg6S e
  arg7 : PArg7S e

structure MasterProp (n : Nat) : Prop where
  expr : ∀ e, sizeE e ≤ n → ExprBlock e
  elems : ∀ es, sizeElems es ≤ n → PElemsS es
  col : ∀ c, sizeCol c ≤ n → PColS c
  cols : ∀ cs, sizeCols cs ≤ n → PColsS cs
  args : ∀ a, sizeArgs a ≤ n → PArgsCS a ∧ PArgsTS a
  opt : ∀ o, sizeOptE o ≤ n → PWhereS o ∧ PGroupS o
  ord : ∀ o, sizeOptOrd o ≤ n → POrderS o
  sel : ∀ s, sizeSel s ≤ n → PSelS s

theorem parseLimit_ok (lim : Option Nat) :
    ∀ f rest, rest.head? ≠ some Tok.kwLimit → 1 ≤ f →
    parseLimitClause f (renderLimitClause lim ++ rest) = some (lim, rest) := by
  intro f rest hh hf
  obtain ⟨f1, rfl⟩ : ∃ f1, f = f1 + 1 := ⟨f - 1, by omega⟩
  cases lim with
  | none =>
    cases rest with
    | nil => rfl
    | cons t r =>
      have ht : t ≠ Tok.kwLimit := by
        intro h
        subst h
        simp at hh
      simp [renderLimitClause, parseLimitClause, ht]
  | some k => simp [renderLimitClause, parseLimitClause]

theorem stopAt_argsTail (a : ArgList) (rest : List Tok) :
    stopAt 1 (renderArgsTail a ++ (.rparen :: rest)) = true := by
  cases a <;> simp [renderArgsTail, stopAt, contLevel]

theorem selTail1 (g : OptExpr) (o : OptOrder) (lim : Option Nat)
    (rest : List Tok) (h : SelStop rest) :
    stopAt 1 (renderGroupClause g ++
        (renderOrderClause o ++ (renderLimitClause lim ++ rest))) = true ∧
      (renderGroupClause g ++
        (renderOrderClause o ++
          (renderLimitClause lim ++ rest))).head? ≠ some Tok.kwWhere := by
  cases g with
  | someExpr e => simp [renderGroupClause, stopAt, contLevel]
  | noExpr =>
    cases o with
    | someOrder e d =>
      cases d <;>
        simp [renderGroupClause, renderOrderClause, stopAt, contLevel]
    | noOrder =>
      cases lim with
      | some k =>
        simp [renderGroupClause, renderOrderClause, renderLimitClause,
          stopAt, contLevel]
      | none =>
        simpa [renderGroupClause, renderOrderClause, renderLimitClause]
          using ⟨h.1, h.2.1⟩

theorem selTail2 (o : OptOrder) (lim : Option Nat) (rest : List Tok)
    (h : SelStop rest) :
    stopAt 1 (renderOrderClause o ++ (renderLimitClause lim ++ rest)) = true ∧
      (renderOrderClause o ++
        (renderLimitClause lim ++ rest)).head? ≠ some Tok.kwGroup := by
  cases o with
  | someOrder e d =>
    cases d <;> simp [renderOrderClause, stopAt, contLevel]
  | noOrder =>
    cases lim with
    | some k =>
      simp [renderOrderClause, renderLimitClause, stopAt, contLevel]
    | none =>
      simpa [renderOrderClause, renderLimitClause] using ⟨h.1, h.2.2.1⟩

theorem selTail3 (lim : Option Nat) (rest : List Tok) (h : SelStop rest) :
    stopAt 1 (renderLimitClause lim ++ rest) = true ∧
      (renderLimitClause lim ++ rest).head? ≠ some Tok.kwOrder ∧
      (renderLimitClause lim ++ rest).head? ≠ some Tok.kwDesc := by
  cases lim with
  | some k => simp [renderLimitClause, stopAt, contLevel]
  | none =>
    simpa [renderLimitClause] using ⟨h.1, h.2.2.2.1, h.2.2.2.2.1⟩

theorem prec_four_cmpE {e : Expr} (h : e.prec = 4) :
    ∃ op l r, e = Expr.cmpE op l r := by
  cases e <;> first | exact ⟨_, _, _, rfl⟩ | simp [Expr.prec] at h

theorem prec_three_notE {e : Expr} (h : e.prec = 3) :
    ∃ x, e = Expr.notE x := by
  cases e <;> first | exact ⟨_, rfl⟩ | simp [Expr.prec] at h

theorem prec_seven_negE {e : Expr} (h : e.prec = 7) :
    ∃ x, e = Expr.negE x := by
  cases e <;> first | exact ⟨_, rfl⟩ | simp [Expr.prec] at h

/-- The unary parser on a member-level or atom-level expression: the
first rendered token is not a minus, so the parser passes straight to
the member/index level. -/
theorem parseUn_high (e : Expr) (h8 : 8 ≤ e.prec) (hpost : PPostS e) :
    ∀ f rest, stopAt 7 rest = true → 30 * sizeE e + 9 ≤ f →
      parseUn f (renderRaw e ++ rest) = some (e, rest) := by
  intro f rest hstop hf
  obtain ⟨f1, rfl⟩ : ∃ f1, f = f1 + 1 := ⟨f - 1, by omega⟩
  rcases hrr : renderRaw e with _ | ⟨t, ts⟩
  · exact absurd hrr (renderRaw_ne_nil e)
  · have htm : t ≠ Tok.minusTok :=
      (renderRaw_head (sizeE e) e le_rfl t ts hrr).2.2.2 h8
    have hp := hpost f1 rest h8
      (stopAt_mono (by omega) hstop) (by omega)
    rw [hrr] at hp
    simp only [List.cons_append] at hp ⊢
    simp [parseUn, htm, hp]

/-- The NOT-level parser on a comparison-level or higher expression:
the first rendered token is not NOT, so the parser passes straight to
the comparison level. -/
theorem parseNot_high (e : Expr) (h4 : 4 ≤ e.prec) (hcmp : PCmpS e) :
    ∀ f rest, stopAt 3 rest = true → 30 * sizeE e + 13 ≤ f →
      parseNotE f (renderRaw e ++ rest) = some (e, rest) := by
  intro f rest hstop hf
  obtain ⟨f1, rfl⟩ : ∃ f1, f = f1 + 1 := ⟨f - 1, by omega⟩
  rcases hrr : renderRaw e with _ | ⟨t, ts⟩
  · exact absurd hrr (renderRaw_ne_nil e)
  · have htm : t ≠ Tok.kwNot :=
      (renderRaw_head (sizeE e) e le_rfl t ts hrr).2.2.1 h4
    have hp := hcmp f1 rest h4 (stopAt_mono (by omega) hstop) (by omega)
    rw [hrr] at hp
    simp only [List.cons_append] at hp ⊢
    simp [parseNotE, htm, hp]

theorem sizeE_pos (e : Expr) : 1 ≤ sizeE e := by
  cases e <;> simp only [sizeE] <;> omega

theorem sizeCol_pos (c : SelCol) : 1 ≤ sizeCol c := by
  cases c <;> simp only [sizeCol] <;> omega

theorem sizeCols_pos (cs : SelCols) : 1 ≤ sizeCols cs := by
  cases cs <;> simp only [sizeCols] <;> omega

theorem sizeSel_pos (s : SelectAst) : 1 ≤ sizeSel s := by
  cases s
  simp only [sizeSel]
  omega

theorem prec_pos (e : Expr) : 1 ≤ e.prec := by
  cases e <;> simp [Expr.prec]

theorem stopAt_renderElems (es : Elems) (rest : List Tok) :
    stopAt 1 (renderElems es ++ (.rparen :: rest)) = true := by
  cases es <;> simp [renderElems, stopAt, contLevel]

theorem stopAt_postItems (items : List PostItem) {rest : List Tok}
    (h : stopAt 8 rest = true) :
    stopAt 9 (postItemsRender items ++ rest) = true := by
  cases items with
  | nil =>
    simp only [postItemsRender, List.nil_append]
    exact stopAt_mono (by omega) h
  | cons it its =>
    cases it <;> simp [postItemsRender, stopAt, contLevel]

/-- The master statement: every family member of bounded size parses
back from its rendering, at every level at which it is printable. -/
theorem parse_master : ∀ n : Nat, MasterProp n := by
  intro n
  induction n using Nat.strong_induction_on with
  | _ n IH =>
  refine ⟨?_, ?_, ?_, ?_, ?_, ?_, ?_, ?_⟩
  · -- expressions
    intro e he
    have hprim : PPrimS e := by
      intro f rest hprec hstop hf
      obtain ⟨f1, rfl⟩ : ∃ f1, f = f1 + 1 := ⟨f - 1, by omega⟩
      cases e
      case intLit k => simp [renderRaw, parsePrim]
      case floatLit a b => simp [renderRaw, parsePrim]
      case strLit s => simp [renderRaw, parsePrim]
      case identE s =>
        cases rest with
        | nil => simp [renderRaw, parsePrim]
        | cons t r =>
          have ht : t ≠ Tok.lparen := by
            intro h
            subst h
            simp [stopAt, contLevel] at hstop
          cases t <;> simp [renderRaw, parsePrim] at ht ⊢
      case trueLit => simp [renderRaw, parsePrim]
      case falseLit => simp [renderRaw, parsePrim]
      case nullLit => simp [renderRaw, parsePrim]
      case callE name args =>
        simp only [sizeE] at he hf
        have hargs := ((IH (sizeArgs args) (by omega)).args args le_rfl).1 f1
          rest (by omega)
        simp only [renderRaw, List.cons_append, List.append_assoc,
          List.singleton_append]
        simp [parsePrim, hargs]
      case arrayLit e1 e2 els =>
        simp only [sizeE] at he hf
        have hpos1 := sizeE_pos e1
        have hpos2 := sizeE_pos e2
        have h1 := ((IH (sizeE e1) (by omega)).expr e1 le_rfl).por f1
          (.commaTok :: (renderRaw e2 ++ (renderElems els ++ (.rparen :: rest))))
          (by simp [stopAt, contLevel]) (by omega)
        have h2 := ((IH (sizeE e2) (by omega)).expr e2 le_rfl).por f1
          (renderElems els ++ (.rparen :: rest))
          (stopAt_renderElems els rest) (by omega)
        have h3 := (IH (sizeElems els) (by omega)).elems els le_rfl f1 rest
          (by omega)
        simp only [renderRaw, List.cons_append, List.append_assoc,
          List.singleton_append]
        simp [parsePrim, h1, h2, h3]
      case subquery s =>
        simp only [sizeE] at he hf
        have hsel := (IH (sizeSel s) (by omega)).sel s le_rfl
        have h1 := hsel f1 (.rbrace :: rest)
          ⟨by simp [stopAt, contLevel], by simp, by simp, by simp,
            by simp, by simp⟩
          (by omega)
        simp only [renderRaw, List.cons_append, List.append_assoc,
          List.singleton_append]
        simp [parsePrim, h1]
      all_goals simp [Expr.prec] at hprec
    have hpost : PPostS e := by
      intro f rest hprec hstop hf
      obtain ⟨hrend, hsz, hheadp, hfold⟩ := postSpine_facts (sizeE e) e le_rfl
      obtain ⟨f1, rfl⟩ : ∃ f1, f = f1 + 1 := ⟨f - 1, by omega⟩
      by_cases hitems : (postSpine e).2 = []
      · have hbe : (postSpine e).1 = e := by
          have h2 := hfold
          rw [hitems] at h2
          simpa using h2
        have h9 : 9 ≤ e.prec := by
          rw [hbe] at hheadp
          omega
        have h1 := hprim f1 rest h9 (stopAt_mono (by omega) hstop) (by omega)
        have h2 := parsePostLoop_exit f1 e rest hstop (by omega)
        simp only [parsePost]
        rw [h1]
        exact h2
      · have hone : 1 ≤ postItemsSize (postSpine e).2 := by
          rcases hps : (postSpine e).2 with _ | ⟨it, its⟩
          · exact absurd hps hitems
          · cases it <;> simp only [postItemsSize] <;> omega
        have hpos := sizeE_pos (postSpine e).1
        have hwrap : wrapTok 8 e (renderRaw e) = renderRaw e := by
          unfold wrapTok
          rw [if_pos hprec]
        have hbase : parsePrim f1
            (wrapTok 8 (postSpine e).1 (renderRaw (postSpine e).1) ++
              (postItemsRender (postSpine e).2 ++ rest)) =
            some ((postSpine e).1, postItemsRender (postSpine e).2 ++ rest) := by
          have hblk := (IH (sizeE (postSpine e).1) (by omega)).expr
            (postSpine e).1 le_rfl
          by_cases hbp : 8 ≤ (postSpine e).1.prec
          · have hw2 : wrapTok 8 (postSpine e).1 (renderRaw (postSpine e).1) =
                renderRaw (postSpine e).1 := by
              unfold wrapTok
              rw [if_pos hbp]
            rw [hw2]
            exact hblk.prim f1 _ (by omega)
              (stopAt_postItems (postSpine e).2 hstop) (by omega)
          · have hw2 : wrapTok 8 (postSpine e).1 (renderRaw (postSpine e).1) =
                .lparen :: (renderRaw (postSpine e).1 ++ [.rparen]) := by
              unfold wrapTok
              rw [if_neg hbp]
            rw [hw2]
            have hpp := parenPrim (postSpine e).1 hblk.por f1
              (postItemsRender (postSpine e).2 ++ rest) (by omega)
            simpa [List.append_assoc] using hpp
        have helem : ∀ i, PostItem.idxItem i ∈ (postSpine e).2 → ∀ f2 r2,
            stopAt 1 r2 = true → 30 * sizeE i + 15 ≤ f2 →
            parseOrE f2 (renderRaw i ++ r2) = some (i, r2) := by
          intro i hi f2 r2 hs2 hf2
          have hile := postItemsSize_mem hi
          exact ((IH (sizeE i) (by omega)).expr i le_rfl).por f2 r2 hs2 hf2
        have hloop := parsePostLoop_ok (postSpine e).2 helem f1 (postSpine e).1
          rest hstop (by omega)
        rw [hfold] at hloop
        rw [← hwrap, hrend, List.append_assoc]
        simp only [parsePost]
        rw [hbase]
        exact hloop
    have hun : PUnS e := by
      intro f rest hprec hstop hf
      by_cases h8 : 8 ≤ e.prec
      · exact parseUn_high e h8 hpost f rest hstop hf
      · have h7 : e.prec = 7 := by omega
        obtain ⟨x, rfl⟩ := prec_seven_negE h7
        simp only [sizeE] at he hf
        have hblk := (IH (sizeE x) (by omega)).expr x le_rfl
        obtain ⟨f1, rfl⟩ : ∃ f1, f = f1 + 1 := ⟨f - 1, by omega⟩
        have h1 := hblk.arg7 f1 rest hstop (by omega)
        simp only [renderRaw, List.cons_append]
        simp [parseUn, h1]
    have hmul : PMulS e := by
      intro f rest hprec hstop hf
      obtain ⟨hrend, hsz, hheadp, hfold⟩ := mulSpine_facts (sizeE e) e le_rfl
      obtain ⟨f1, rfl⟩ : ∃ f1, f = f1 + 1 := ⟨f - 1, by omega⟩
      have hwrap : wrapTok 6 e (renderRaw e) = renderRaw e := by
        unfold wrapTok
        rw [if_pos hprec]
      have hpos := sizeE_pos (mulSpine e).1
      have hstop7 := stopAt_mulOps (mulSpine e).2 rest hstop
      have hbase : parseUn f1
          (wrapTok 6 (mulSpine e).1 (renderRaw (mulSpine e).1) ++
            (mulOpsRender (mulSpine e).2 ++ rest)) =
          some ((mulSpine e).1, mulOpsRender (mulSpine e).2 ++ rest) := by
        by_cases hitems : (mulSpine e).2 = []
        · have hbe : (mulSpine e).1 = e := by
            have h2 := hfold
            rw [hitems] at h2
            simpa using h2
          have h7 : 7 ≤ e.prec := by
            rw [hbe] at hheadp
            omega
          rw [hbe, hitems]
          simp only [mulOpsRender, List.nil_append]
          rw [hwrap]
          exact hun f1 rest h7 (stopAt_mono (by omega) hstop) (by omega)
        · have hone : 1 ≤ mulOpsSize (mulSpine e).2 := by
            rcases hps : (mulSpine e).2 with _ | ⟨p, ps⟩
            · exact absurd hps hitems
            · simp only [mulOpsSize]
              omega
          have hblk := (IH (sizeE (mulSpine e).1) (by omega)).expr
            (mulSpine e).1 le_rfl
          by_cases hbp : 6 ≤ (mulSpine e).1.prec
          · have hw2 : wrapTok 6 (mulSpine e).1 (renderRaw (mulSpine e).1) =
                renderRaw (mulSpine e).1 := by
              unfold wrapTok
              rw [if_pos hbp]
            rw [hw2]
            exact hblk.un f1 _ (by omega) hstop7 (by omega)
          · have hw2 : wrapTok 6 (mulSpine e).1 (renderRaw (mulSpine e).1) =
                .lparen :: (renderRaw (mulSpine e).1 ++ [.rparen]) := by
              unfold wrapTok
              rw [if_neg hbp]
            rw [hw2]
            have hpp := parenUn (mulSpine e).1 hblk.por f1
              (mulOpsRender (mulSpine e).2 ++ rest)
              (stopAt_mono (by omega) hstop7) (by omega)
            simpa [List.append_assoc] using hpp
      have helem : ∀ p ∈ (mulSpine e).2, ∀ f2 r2, stopAt 7 r2 = true →
          30 * sizeE p.2 + 25 ≤ f2 →
          parseUn f2 (wrapTok 7 p.2 (renderRaw p.2) ++ r2) = some (p.2, r2) := by
        intro p hp f2 r2 hs2 hf2
        have hile := mulOpsSize_mem hp
        exact ((IH (sizeE p.2) (by omega)).expr p.2 le_rfl).arg7 f2 r2 hs2 hf2
      have hloop := parseMulLoop_ok (mulSpine e).2 helem f1 (mulSpine e).1
        rest hstop (by omega)
      rw [hfold] at hloop
      rw [← hwrap, hrend, List.append_assoc]
      simp only [parseMulE]
      rw [hbase]
      exact hloop
    have hadd : PAddS e := by
      intro f rest hprec hstop hf
      obtain ⟨hrend, hsz, hheadp, hfold⟩ := addSpine_facts (sizeE e) e le_rfl
      obtain ⟨f1, rfl⟩ : ∃ f1, f = f1 + 1 := ⟨f - 1, by omega⟩
      have hwrap : wrapTok 5 e (renderRaw e) = renderRaw e := by
        unfold wrapTok
        rw [if_pos hprec]
      have hpos := sizeE_pos (addSpine e).1
      have hstop6 := stopAt_addOps (addSpine e).2 rest hstop
      have hbase : parseMulE f1
          (wrapTok 5 (addSpine e).1 (renderRaw (addSpine e).1) ++
            (addOpsRender (addSpine e).2 ++ rest)) =
          some ((addSpine e).1, addOpsRender (addSpine e).2 ++ rest) := by
        by_cases hitems : (addSpine e).2 = []
        · have hbe : (addSpine e).1 = e := by
            have h2 := hfold
            rw [hitems] at h2
            simpa using h2
          have h6 : 6 ≤ e.prec := by
            rw [hbe] at hheadp
            omega
          rw [hbe, hitems]
          simp only [addOpsRender, List.nil_append]
          rw [hwrap]
          exact hmul f1 rest h6 (stopAt_mono (by omega) hstop) (by omega)
        · have hone : 1 ≤ addOpsSize (addSpine e).2 := by
            rcases hps : (addSpine e).2 with _ | ⟨p, ps⟩
            · exact absurd hps hitems
            · simp only [addOpsSize]
              omega
          have hblk := (IH (sizeE (addSpine e).1) (by omega)).expr
            (addSpine e).1 le_rfl
          by_cases hbp : 5 ≤ (addSpine e).1.prec
          · have hw2 : wrapTok 5 (addSpine e).1 (renderRaw (addSpine e).1) =
                renderRaw (addSpine e).1 := by
              unfold wrapTok
              rw [if_pos hbp]
            rw [hw2]
            exact hblk.mul f1 _ (by omega) hstop6 (by omega)
          · have hw2 : wrapTok 5 (addSpine e).1 (renderRaw (addSpine e).1) =
                .lparen :: (renderRaw (addSpine e).1 ++ [.rparen]) := by
              unfold wrapTok
              rw [if_neg hbp]
            rw [hw2]
            have hpp := parenMul (addSpine e).1 hblk.por f1
              (addOpsRender (addSpine e).2 ++ rest) hstop6 (by omega)
            simpa [List.append_assoc] using hpp
      have helem : ∀ p ∈ (addSpine e).2, ∀ f2 r2, stopAt 6 r2 = true →
          30 * sizeE p.2 + 25 ≤ f2 →
          parseMulE f2 (wrapTok 6 p.2 (renderRaw p.2) ++ r2) = some (p.2, r2) := by
        intro p hp f2 r2 hs2 hf2
        have hile := addOpsSize_mem hp
        exact ((IH (sizeE p.2) (by omega)).expr p.2 le_rfl).arg6 f2 r2 hs2 hf2
      have hloop := parseAddLoop_ok (addSpine e).2 helem f1 (addSpine e).1
        rest hstop (by omega)
      rw [hfold] at hloop
      rw [← hwrap, hrend, List.append_assoc]
      simp only [parseAddE]
      rw [hbase]
      exact hloop
    have hcmp : PCmpS e := by
      intro f rest hprec hstop hf
      obtain ⟨f1, rfl⟩ : ∃ f1, f = f1 + 1 := ⟨f - 1, by omega⟩
      by_cases h5 : 5 ≤ e.prec
      · have h1 := hadd f1 rest h5 (stopAt_mono (by omega) hstop) (by omega)
        simp only [parseCmpE]
        rw [h1]
        cases rest with
        | nil => rfl
        | cons t r2 =>
          have hlt : contLevel t < 4 := by simpa [stopAt] using hstop
          have ht : cmpOpOf t = none := cmpOpOf_eq_none hlt
          simp [ht]
      · have h4 : e.prec = 4 := by omega
        obtain ⟨op, l, r, rfl⟩ := prec_four_cmpE h4
        simp only [sizeE] at he hf
        have hL := ((IH (sizeE l) (by omega)).expr l le_rfl).arg5 f1
          (renderCmpOp op :: (wrapTok 5 r (renderRaw r) ++ rest))
          (by simp [stopAt, contLevel_renderCmpOp]) (by omega)
        have hR := ((IH (sizeE r) (by omega)).expr r le_rfl).arg5 f1 rest
          (stopAt_mono (by omega) hstop) (by omega)
        simp only [renderRaw, List.append_assoc, List.cons_append,
          List.singleton_append, List.nil_append]
        simp only [parseCmpE]
        rw [hL]
        simp [cmpOpOf_renderCmpOp, hR]
    have hnot : PNotS e := by
      intro f rest hprec hstop hf
      by_cases h4 : 4 ≤ e.prec
      · exact parseNot_high e h4 hcmp f rest hstop hf
      · have h3 : e.prec = 3 := by omega
        obtain ⟨x, rfl⟩ := prec_three_notE h3
        simp only [sizeE] at he hf
        have hblk := (IH (sizeE x) (by omega)).expr x le_rfl
        obtain ⟨f1, rfl⟩ : ∃ f1, f = f1 + 1 := ⟨f - 1, by omega⟩
        have h1 := hblk.arg3 f1 rest hstop (by omega)
        simp only [renderRaw, List.cons_append]
        simp [parseNotE, h1]
    have hand : PAndS e := by
      intro f rest hprec hstop hf
      obtain ⟨hrend, hsz, hheadp, hfold⟩ := andSpine_facts (sizeE e) e le_rfl
      obtain ⟨f1, rfl⟩ : ∃ f1, f = f1 + 1 := ⟨f - 1, by omega⟩
      have hwrap : wrapTok 2 e (renderRaw e) = renderRaw e := by
        unfold wrapTok
        rw [if_pos hprec]
      have hpos := sizeE_pos (andSpine e).1
      have hstop3 := stopAt_andOps (andSpine e).2 rest hstop
      have hbase : parseNotE f1
          (wrapTok 2 (andSpine e).1 (renderRaw (andSpine e).1) ++
            (andOpsRender (andSpine e).2 ++ rest)) =
          some ((andSpine e).1, andOpsRender (andSpine e).2 ++ rest) := by
        by_cases hitems : (andSpine e).2 = []
        · have hbe : (andSpine e).1 = e := by
            have h2 := hfold
            rw [hitems] at h2
            simpa using h2
          have h3 : 3 ≤ e.prec := by
            rw [hbe] at hheadp
            omega
          rw [hbe, hitems]
          simp only [andOpsRender, List.nil_append]
          rw [hwrap]
          exact hnot f1 rest h3 (stopAt_mono (by omega) hstop) (by omega)
        · have hone : 1 ≤ andOpsSize (andSpine e).2 := by
            rcases hps : (andSpine e).2 with _ | ⟨p, ps⟩
            · exact absurd hps hitems
            · simp only [andOpsSize]
              omega
          have hblk := (IH (sizeE (andSpine e).1) (by omega)).expr
            (andSpine e).1 le_rfl
          by_cases hbp : 2 ≤ (andSpine e).1.prec
          · have hw2 : wrapTok 2 (andSpine e).1 (renderRaw (andSpine e).1) =
                renderRaw (andSpine e).1 := by
              unfold wrapTok
              rw [if_pos hbp]
            rw [hw2]
            exact hblk.pnot f1 _ (by omega) hstop3 (by omega)
          · have hw2 : wrapTok 2 (andSpine e).1 (renderRaw (andSpine e).1) =
                .lparen :: (renderRaw (andSpine e).1 ++ [.rparen]) := by
              unfold wrapTok
              rw [if_neg hbp]
            rw [hw2]
            have hpp := parenNot (andSpine e).1 hblk.por f1
              (andOpsRender (andSpine e).2 ++ rest)
              (stopAt_mono (by omega) hstop3) (by omega)
            simpa [List.append_assoc] using hpp
      have helem : ∀ o ∈ (andSpine e).2, ∀ f2 r2, stopAt 3 r2 = true →
          30 * sizeE o + 25 ≤ f2 →
          parseNotE f2 (wrapTok 3 o (renderRaw o) ++ r2) = some (o, r2) := by
        intro o ho f2 r2 hs2 hf2
        have hile := andOpsSize_mem ho
        exact ((IH (sizeE o) (by omega)).expr o le_rfl).arg3 f2 r2 hs2 hf2
      have hloop := parseAndLoop_ok (andSpine e).2 helem f1 (andSpine e).1
        rest hstop (by omega)
      rw [hfold] at hloop
      rw [← hwrap, hrend, List.append_assoc]
      simp only [parseAndE]
      rw [hbase]
      exact hloop
    have hor : POrS e := by
      intro f rest hstop hf
      obtain ⟨hrend, hsz, hheadp, hfold⟩ := orSpine_facts (sizeE e) e le_rfl
      obtain ⟨f1, rfl⟩ : ∃ f1, f = f1 + 1 := ⟨f - 1, by omega⟩
      have hpos := sizeE_pos (orSpine e).1
      have hstop2 := stopAt_orOps (orSpine e).2 rest hstop
      have hp2 : 2 ≤ (orSpine e).1.prec := by
        have := prec_pos (orSpine e).1
        omega
      have hbase : parseAndE f1
          (renderRaw (orSpine e).1 ++ (orOpsRender (orSpine e).2 ++ rest)) =
          some ((orSpine e).1, orOpsRender (orSpine e).2 ++ rest) := by
        by_cases hitems : (orSpine e).2 = []
        · have hbe : (orSpine e).1 = e := by
            have h2 := hfold
            rw [hitems] at h2
            simpa using h2
          rw [hbe]
          have h2 : 2 ≤ e.prec := by
            rw [hbe] at hp2
            exact hp2
          exact hand f1 _ h2 hstop2 (by omega)
        · have hone : 1 ≤ orOpsSize (orSpine e).2 := by
            rcases hps : (orSpine e).2 with _ | ⟨p, ps⟩
            · exact absurd hps hitems
            · simp only [orOpsSize]
              omega
          have hblk := (IH (sizeE (orSpine e).1) (by omega)).expr
            (orSpine e).1 le_rfl
          exact hblk.pand f1 _ hp2 hstop2 (by omega)
      have helem : ∀ o ∈ (orSpine e).2, ∀ f2 r2, stopAt 2 r2 = true →
          30 * sizeE o + 25 ≤ f2 →
          parseAndE f2 (wrapTok 2 o (renderRaw o) ++ r2) = some (o, r2) := by
        intro o ho f2 r2 hs2 hf2
        have hile := orOpsSize_mem ho
        exact ((IH (sizeE o) (by omega)).expr o le_rfl).arg2 f2 r2 hs2 hf2
      have hloop := parseOrLoop_ok (orSpine e).2 helem f1 (orSpine e).1
        rest hstop (by omega)
      rw [hfold] at hloop
      rw [hrend, List.append_assoc]
      simp only [parseOrE]
      rw [hbase]
      exact hloop
    have harg2 : PArg2S e := by
      intro f rest hstop hf
      by_cases hp : 2 ≤ e.prec
      · have hw : wrapTok 2 e (renderRaw e) = renderRaw e := by
          unfold wrapTok
          rw [if_pos hp]
        rw [hw]
        exact hand f rest hp hstop (by omega)
      · have hw : wrapTok 2 e (renderRaw e) =
            .lparen :: (renderRaw e ++ [.rparen]) := by
          unfold wrapTok
          rw [if_neg hp]
        rw [hw]
        have hpp := parenAnd e hor f rest hstop (by omega)
        simpa [List.append_assoc] using hpp
    have harg3 : PArg3S e := by
      intro f rest hstop hf
      by_cases hp : 3 ≤ e.prec
      · have hw : wrapTok 3 e (renderRaw e) = renderRaw e := by
          unfold wrapTok
          rw [if_pos hp]
        rw [hw]
        exact hnot f rest hp hstop (by omega)
      · have hw : wrapTok 3 e (renderRaw e) =
            .lparen :: (renderRaw e ++ [.rparen]) := by
          unfold wrapTok
          rw [if_neg hp]
        rw [hw]
        have hpp := parenNot e hor f rest (stopAt_mono (by omega) hstop)
          (by omega)
        simpa [List.append_assoc] using hpp
    have harg5 : PArg5S e := by
      intro f rest hstop hf
      by_cases hp : 5 ≤ e.prec
      · have hw : wrapTok 5 e (renderRaw e) = renderRaw e := by
          unfold wrapTok
          rw [if_pos hp]
        rw [hw]
        exact hadd f rest hp hstop (by omega)
      · have hw : wrapTok 5 e (renderRaw e) =
            .lparen :: (renderRaw e ++ [.rparen]) := by
          unfold wrapTok
          rw [if_neg hp]
        rw [hw]
        have hpp := parenAdd e hor f rest hstop (by omega)
        simpa [List.append_assoc] using hpp
    have harg6 : PArg6S e := by
      intro f rest hstop hf
      by_cases hp : 6 ≤ e.prec
      · have hw : wrapTok 6 e (renderRaw e) = renderRaw e := by
          unfold wrapTok
          rw [if_pos hp]
        rw [hw]
        exact hmul f rest hp hstop (by omega)
      · have hw : wrapTok 6 e (renderRaw e) =
            .lparen :: (renderRaw e ++ [.rparen]) := by
          unfold wrapTok
          rw [if_neg hp]
        rw [hw]
        have hpp := parenMul e hor f rest hstop (by omega)
        simpa [List.append_assoc] using hpp
    have harg7 : PArg7S e := by
      intro f rest hstop hf
      by_cases hp : 7 ≤ e.prec
      · have hw : wrapTok 7 e (renderRaw e) = renderRaw e := by
          unfold wrapTok
          rw [if_pos hp]
        rw [hw]
        exact hun f rest hp hstop (by omega)
      · have hw : wrapTok 7 e (renderRaw e) =
            .lparen :: (renderRaw e ++ [.rparen]) := by
          unfold wrapTok
          rw [if_neg hp]
        rw [hw]
        have hpp := parenUn e hor f rest (stopAt_mono (by omega) hstop)
          (by omega)
        simpa [List.append_assoc] using hpp
    exact ⟨hprim, hpost, hun, hmul, hadd, hcmp, hnot, hand, hor,
      harg2, harg3, harg5, harg6, harg7⟩
  · -- array-literal element tails
    intro es hes
    intro f rest hf
    obtain ⟨f1, rfl⟩ : ∃ f1, f = f1 + 1 := ⟨f - 1, by omega⟩
    cases es with
    | nilElems => simp [renderElems, parseElems]
    | consElems e els2 =>
      simp only [sizeElems] at hes hf
      have h1 := ((IH (sizeE e) (by omega)).expr e le_rfl).por f1
        (renderElems els2 ++ (.rparen :: rest))
        (stopAt_renderElems els2 rest) (by omega)
      have h2 := (IH (sizeElems els2) (by omega)).elems els2 le_rfl f1 rest
        (by omega)
      simp only [renderElems, List.cons_append, List.append_assoc]
      simp [parseElems, h1, h2]
  · -- single columns
    intro c hc
    intro f rest hstop hAs hf
    obtain ⟨f1, rfl⟩ : ∃ f1, f = f1 + 1 := ⟨f - 1, by omega⟩
    cases c with
    | star => simp [renderCol, parseCol]
    | colExpr e asn =>
      simp only [sizeCol] at hc hf
      have hblk := (IH (sizeE e) (by omega)).expr e le_rfl
      rcases hrr : renderRaw e with _ | ⟨t, ts⟩
      · exact absurd hrr (renderRaw_ne_nil e)
      have hts : t ≠ Tok.starTok :=
        (renderRaw_head (sizeE e) e le_rfl t ts hrr).2.1
      cases asn with
      | none =>
        have hpor := hblk.por f1 rest hstop (by omega)
        rw [hrr] at hpor
        simp only [renderCol, hrr, List.cons_append] at hpor ⊢
        cases rest with
        | nil =>
          simp only [List.append_nil] at hpor
          simp [parseCol, hts, hpor]
        | cons t2 r2 =>
          have ht2 : t2 ≠ Tok.kwAs := by
            intro h
            subst h
            simp at hAs
          simp [parseCol, hts, hpor, ht2]
      | some a =>
        have hpor := hblk.por f1 (Tok.kwAs :: Tok.id a :: rest)
          (by simp [stopAt, contLevel]) (by omega)
        rw [hrr] at hpor
        simp only [renderCol, hrr, List.cons_append, List.append_assoc,
          List.singleton_append] at hpor ⊢
        simp [parseCol, hts, hpor]
  · -- column lists
    intro cs hcs
    intro f rest hstop hAs hComma hf
    obtain ⟨f1, rfl⟩ : ∃ f1, f = f1 + 1 := ⟨f - 1, by omega⟩
    cases cs with
    | lastCol c =>
      simp only [sizeCols] at hcs hf
      have h1 := (IH (sizeCol c) (by omega)).col c le_rfl f1 rest hstop hAs
        (by omega)
      cases rest with
      | nil =>
        simp only [List.append_nil] at h1
        simp [renderCols, parseCols, h1]
      | cons t r1 =>
        have ht : t ≠ Tok.commaTok := by
          intro h
          subst h
          simp at hComma
        simp [renderCols, parseCols, h1, ht]
    | consCol c cs2 =>
      simp only [sizeCols] at hcs hf
      have h1 := (IH (sizeCol c) (by omega)).col c le_rfl f1
        (Tok.commaTok :: (renderCols cs2 ++ rest))
        (by simp [stopAt, contLevel]) (by simp) (by omega)
      have h2 := (IH (sizeCols cs2) (by omega)).cols cs2 le_rfl f1 rest
        hstop hAs hComma (by omega)
      simp only [renderCols, List.append_assoc, List.cons_append,
        List.singleton_append]
      simp [parseCols, h1, h2]
  · -- argument lists
    intro a ha
    constructor
    · intro f rest hf
      obtain ⟨f1, rfl⟩ : ∃ f1, f = f1 + 1 := ⟨f - 1, by omega⟩
      cases a with
      | nilArgs => simp [renderArgs, parseArgsClosed]
      | consArgs name e a2 =>
        simp only [sizeArgs] at ha hf
        have hpor := ((IH (sizeE e) (by omega)).expr e le_rfl).por f1
          (renderArgsTail a2 ++ (.rparen :: rest)) (stopAt_argsTail a2 rest)
          (by omega)
        have htail := ((IH (sizeArgs a2) (by omega)).args a2 le_rfl).2 f1
          rest (by omega)
        simp only [renderArgs, List.append_assoc, List.cons_append]
        simp [parseArgsClosed, hpor, htail]
    · intro f rest hf
      obtain ⟨f1, rfl⟩ : ∃ f1, f = f1 + 1 := ⟨f - 1, by omega⟩
      cases a with
      | nilArgs => simp [renderArgsTail, parseArgsTail]
      | consArgs name e a2 =>
        simp only [sizeArgs] at ha hf
        have hpor := ((IH (sizeE e) (by omega)).expr e le_rfl).por f1
          (renderArgsTail a2 ++ (.rparen :: rest)) (stopAt_argsTail a2 rest)
          (by omega)
        have htail := ((IH (sizeArgs a2) (by omega)).args a2 le_rfl).2 f1
          rest (by omega)
        simp only [renderArgsTail, List.append_assoc, List.cons_append]
        simp [parseArgsTail, hpor, htail]
  · -- WHERE and GROUP BY clauses
    intro o ho
    constructor
    · intro f rest hstop hhw hf
      obtain ⟨f1, rfl⟩ : ∃ f1, f = f1 + 1 := ⟨f - 1, by omega⟩
      cases o with
      | noExpr =>
        cases rest with
        | nil => simp [renderWhereClause, parseWhereClause]
        | cons t r =>
          have ht : t ≠ Tok.kwWhere := by
            intro h
            subst h
            simp at hhw
          simp [renderWhereClause, parseWhereClause, ht]
      | someExpr e =>
        simp only [sizeOptE] at ho hf
        have hpor := ((IH (sizeE e) (by omega)).expr e le_rfl).por f1 rest
          hstop (by omega)
        simp only [renderWhereClause, List.cons_append]
        simp [parseWhereClause, hpor]
    · intro f rest hstop hhg hf
      obtain ⟨f1, rfl⟩ : ∃ f1, f = f1 + 1 := ⟨f - 1, by omega⟩
      cases o with
      | noExpr =>
        cases rest with
        | nil => simp [renderGroupClause, parseGroupClause]
        | cons t r =>
          have ht : t ≠ Tok.kwGroup := by
            intro h
            subst h
            simp at hhg
          simp [renderGroupClause, parseGroupClause, ht]
      | someExpr e =>
        simp only [sizeOptE] at ho hf
        have hpor := ((IH (sizeE e) (by omega)).expr e le_rfl).por f1 rest
          hstop (by omega)
        simp only [renderGroupClause, List.cons_append]
        simp [parseGroupClause, hpor]
  · -- ORDER BY clauses
    intro o ho
    intro f rest hstop hho hhd hf
    obtain ⟨f1, rfl⟩ : ∃ f1, f = f1 + 1 := ⟨f - 1, by omega⟩
    cases o with
    | noOrder =>
      cases rest with
      | nil => simp [renderOrderClause, parseOrderClause]
      | cons t r =>
        have ht : t ≠ Tok.kwOrder := by
          intro h
          subst h
          simp at hho
        simp [renderOrderClause, parseOrderClause, ht]
    | someOrder e d =>
      simp only [sizeOptOrd] at ho hf
      cases d with
      | true =>
        have hpor := ((IH (sizeE e) (by omega)).expr e le_rfl).por f1
          (Tok.kwDesc :: rest) (by simp [stopAt, contLevel]) (by omega)
        simp only [renderOrderClause, List.cons_append, List.append_assoc,
          List.singleton_append]
        simp [parseOrderClause, hpor]
      | false =>
        have hpor := ((IH (sizeE e) (by omega)).expr e le_rfl).por f1 rest
          hstop (by omega)
        simp only [renderOrderClause, List.cons_append]
        cases rest with
        | nil =>
          simp only [List.append_nil] at hpor
          simp [parseOrderClause, hpor]
        | cons t2 r3 =>
          have ht2 : t2 ≠ Tok.kwDesc := by
            intro h
            subst h
            simp at hhd
          simp [parseOrderClause, hpor, ht2]
  · -- SELECT statements
    intro s hs
    intro f rest hSel hf
    obtain ⟨f1, rfl⟩ : ∃ f1, f = f1 + 1 := ⟨f - 1, by omega⟩
    obtain ⟨cols, plugin, args, whereE, groupE, orderE, lim⟩ := s
    simp only [sizeSel] at hs hf
    have hcols := (IH (sizeCols cols) (by omega)).cols cols le_rfl f1
      (Tok.kwFrom :: Tok.id plugin :: Tok.lparen ::
        (renderArgs args ++ (.rparen :: (renderWhereClause whereE ++
          (renderGroupClause groupE ++ (renderOrderClause orderE ++
            (renderLimitClause lim ++ rest)))))))
      (by simp [stopAt, contLevel]) (by simp) (by simp) (by omega)
    have hargs := ((IH (sizeArgs args) (by omega)).args args le_rfl).1 f1
      (renderWhereClause whereE ++ (renderGroupClause groupE ++
        (renderOrderClause orderE ++ (renderLimitClause lim ++ rest))))
      (by omega)
    have ht1 := selTail1 groupE orderE lim rest hSel
    have hwh := ((IH (sizeOptE whereE) (by omega)).opt whereE le_rfl).1 f1
      (renderGroupClause groupE ++ (renderOrderClause orderE ++
        (renderLimitClause lim ++ rest))) ht1.1 ht1.2 (by omega)
    have ht2 := selTail2 orderE lim rest hSel
    have hgr := ((IH (sizeOptE groupE) (by omega)).opt groupE le_rfl).2 f1
      (renderOrderClause orderE ++ (renderLimitClause lim ++ rest))
      ht2.1 ht2.2 (by omega)
    have ht3 := selTail3 lim rest hSel
    have hord := (IH (sizeOptOrd orderE) (by omega)).ord orderE le_rfl f1
      (renderLimitClause lim ++ rest) ht3.1 ht3.2.1 ht3.2.2 (by omega)
    have hlim := parseLimit_ok lim f1 rest hSel.2.2.2.2.2 (by omega)
    simp only [renderSelect, List.append_assoc, List.cons_append,
      List.singleton_append]
    simp [parseSelect, hcols, hargs, hwh, hgr, hord, hlim]

/-! Token counts dominate sizes, so a fuel linear in the token count
covers the size-based budgets of the parsing lemmas. -/

theorem wrapTok_len (p : Nat) (e : Expr) (r : List Tok) :
    r.length ≤ (wrapTok p e r).length := by
  unfold wrapTok
  split <;> simp <;> omega

/-- Size-versus-token-count bounds for every family, at bounded size. -/
def LenBound (n : Nat) : Prop :=
  (∀ e, sizeE e ≤ n → sizeE e + 1 ≤ 2 * (renderRaw e).length) ∧
  (∀ c, sizeCol c ≤ n → sizeCol c ≤ 2 * (renderCol c).length) ∧
  (∀ cs, sizeCols cs ≤ n → sizeCols cs ≤ 2 * (renderCols cs).length + 1) ∧
  (∀ a, sizeArgs a ≤ n → sizeArgs a ≤ 2 * (renderArgs a).length ∧
    sizeArgs a ≤ 2 * (renderArgsTail a).length) ∧
  (∀ o, sizeOptE o ≤ n → sizeOptE o ≤ 2 * (renderWhereClause o).length ∧
    sizeOptE o ≤ 2 * (renderGroupClause o).length) ∧
  (∀ o, sizeOptOrd o ≤ n → sizeOptOrd o ≤ 2 * (renderOrderClause o).length) ∧
  (∀ s, sizeSel s ≤ n → sizeSel s + 8 ≤ 2 * (renderSelect s).length) ∧
  (∀ es, sizeElems es ≤ n → sizeElems es ≤ 2 * (renderElems es).length)

theorem lenBound : ∀ n : Nat, LenBound n := by
  intro n
  induction n using Nat.strong_induction_on with
  | _ n IH =>
  refine ⟨?_, ?_, ?_, ?_, ?_, ?_, ?_, ?_⟩
  · intro e he
    cases e
    case orE l r =>
      simp only [sizeE] at he ⊢
      have h1 := (IH (sizeE l) (by omega)).1 l le_rfl
      have h2 := (IH (sizeE r) (by omega)).1 r le_rfl
      have w1 := wrapTok_len 1 l (renderRaw l)
      have w2 := wrapTok_len 2 r (renderRaw r)
      simp only [renderRaw, List.length_append, List.length_cons,
        List.length_nil]
      omega
    case andE l r =>
      simp only [sizeE] at he ⊢
      have h1 := (IH (sizeE l) (by omega)).1 l le_rfl
      have h2 := (IH (sizeE r) (by omega)).1 r le_rfl
      have w1 := wrapTok_len 2 l (renderRaw l)
      have w2 := wrapTok_len 3 r (renderRaw r)
      simp only [renderRaw, List.length_append, List.length_cons,
        List.length_nil]
      omega
    case notE x =>
      simp only [sizeE] at he ⊢
      have h1 := (IH (sizeE x) (by omega)).1 x le_rfl
      have w1 := wrapTok_len 3 x (renderRaw x)
      simp only [renderRaw, List.length_cons]
      omega
    case cmpE op l r =>
      simp only [sizeE] at he ⊢
      have h1 := (IH (sizeE l) (by omega)).1 l le_rfl
      have h2 := (IH (sizeE r) (by omega)).1 r le_rfl
      have w1 := wrapTok_len 5 l (renderRaw l)
      have w2 := wrapTok_len 5 r (renderRaw r)
      simp only [renderRaw, List.length_append, List.length_cons,
        List.length_nil]
      omega
    case addE op l r =>
      simp only [sizeE] at he ⊢
      have h1 := (IH (sizeE l) (by omega)).1 l le_rfl
      have h2 := (IH (sizeE r) (by omega)).1 r le_rfl
      have w1 := wrapTok_len 5 l (renderRaw l)
      have w2 := wrapTok_len 6 r (renderRaw r)
      simp only [renderRaw, List.length_append, List.length_cons,
        List.length_nil]
      omega
    case mulE op l r =>
      simp only [sizeE] at he ⊢
      have h1 := (IH (sizeE l) (by omega)).1 l le_rfl
      have h2 := (IH (sizeE r) (by omega)).1 r le_rfl
      have w1 := wrapTok_len 6 l (renderRaw l)
      have w2 := wrapTok_len 7 r (renderRaw r)
      simp only [renderRaw, List.length_append, List.length_cons,
        List.length_nil]
      omega
    case negE x =>
      simp only [sizeE] at he ⊢
      have h1 := (IH (sizeE x) (by omega)).1 x le_rfl
      have w1 := wrapTok_len 7 x (renderRaw x)
      simp only [renderRaw, List.length_cons]
      omega
    case memberE x fld =>
      simp only [sizeE] at he ⊢
      have h1 := (IH (sizeE x) (by omega)).1 x le_rfl
      have w1 := wrapTok_len 8 x (renderRaw x)
      simp only [renderRaw, List.length_append, List.length_cons,
        List.length_nil]
      omega
    case indexE x i =>
      simp only [sizeE] at he ⊢
      have h1 := (IH (sizeE x) (by omega)).1 x le_rfl
      have h2 := (IH (sizeE i) (by omega)).1 i le_rfl
      have w1 := wrapTok_len 8 x (renderRaw x)
      simp only [renderRaw, List.length_append, List.length_cons,
        List.length_nil]
      omega
    case subquery s =>
      simp only [sizeE] at he ⊢
      have h1 := (IH (sizeSel s) (by omega)).2.2.2.2.2.2.1 s le_rfl
      simp only [renderRaw, List.length_cons, List.length_append,
        List.length_nil]
      omega
    case callE name args =>
      simp only [sizeE] at he ⊢
      have h1 := ((IH (sizeArgs args) (by omega)).2.2.2.1 args le_rfl).1
      simp only [renderRaw, List.length_cons, List.length_append,
        List.length_nil]
      omega
    case arrayLit e1 e2 els =>
      simp only [sizeE] at he ⊢
      have h1 := (IH (sizeE e1) (by omega)).1 e1 le_rfl
      have h2 := (IH (sizeE e2) (by omega)).1 e2 le_rfl
      have h3 := (IH (sizeElems els) (by omega)).2.2.2.2.2.2.2 els le_rfl
      simp only [renderRaw, List.length_cons, List.length_append,
        List.length_nil]
      omega
    all_goals simp only [sizeE, renderRaw, List.length_cons,
      List.length_nil] <;> omega
  · intro c hc
    cases c with
    | star => simp [sizeCol, renderCol]
    | colExpr e asn =>
      simp only [sizeCol] at hc ⊢
      have h1 := (IH (sizeE e) (by omega)).1 e le_rfl
      cases asn with
      | none =>
        simp only [renderCol]
        omega
      | some a =>
        simp only [renderCol, List.length_append, List.length_cons,
          List.length_nil]
        omega
  · intro cs hcs
    cases cs with
    | lastCol c =>
      simp only [sizeCols] at hcs ⊢
      have h1 := (IH (sizeCol c) (by omega)).2.1 c le_rfl
      simp only [renderCols]
      omega
    | consCol c rest =>
      simp only [sizeCols] at hcs ⊢
      have h1 := (IH (sizeCol c) (by omega)).2.1 c le_rfl
      have h2 := (IH (sizeCols rest) (by omega)).2.2.1 rest le_rfl
      simp only [renderCols, List.length_append, List.length_cons,
        List.length_nil]
      omega
  · intro a ha
    cases a with
    | nilArgs => simp [sizeArgs, renderArgs, renderArgsTail]
    | consArgs nm e rest =>
      simp only [sizeArgs] at ha ⊢
      have h1 := (IH (sizeE e) (by omega)).1 e le_rfl
      have h2 := (IH (sizeArgs rest) (by omega)).2.2.2.1 rest le_rfl
      constructor <;>
        simp only [renderArgs, renderArgsTail, List.length_append,
          List.length_cons, List.length_nil] <;>
        omega
  · intro o ho
    cases o with
    | noExpr => simp [sizeOptE, renderWhereClause, renderGroupClause]
    | someExpr e =>
      simp only [sizeOptE] at ho ⊢
      have h1 := (IH (sizeE e) (by omega)).1 e le_rfl
      constructor <;>
        simp only [renderWhereClause, renderGroupClause,
          List.length_cons] <;>
        omega
  · intro o ho
    cases o with
    | noOrder => simp [sizeOptOrd, renderOrderClause]
    | someOrder e d =>
      simp only [sizeOptOrd] at ho ⊢
      have h1 := (IH (sizeE e) (by omega)).1 e le_rfl
      cases d <;>
        simp only [renderOrderClause, List.length_cons, List.length_append,
          List.length_nil] <;>
        omega
  · intro s hs
    obtain ⟨cols, plugin, args, whereE, groupE, orderE, lim⟩ := s
    simp only [sizeSel] at hs ⊢
    have h1 := (IH (sizeCols cols) (by omega)).2.2.1 cols le_rfl
    have h2 := (IH (sizeArgs args) (by omega)).2.2.2.1 args le_rfl
    have h3 := (IH (sizeOptE whereE) (by omega)).2.2.2.2.1 whereE le_rfl
    have h4 := (IH (sizeOptE groupE) (by omega)).2.2.2.2.1 groupE le_rfl
    have h5 := (IH (sizeOptOrd orderE) (by omega)).2.2.2.2.2.1 orderE le_rfl
    simp only [renderSelect, List.length_append, List.length_cons,
      List.length_nil]
    omega
  · intro es hes
    cases es with
    | nilElems => simp [sizeElems, renderElems]
    | consElems e rest =>
      simp only [sizeElems] at hes ⊢
      have h1 := (IH (sizeE e) (by omega)).1 e le_rfl
      have h2 := (IH (sizeElems rest) (by omega)).2.2.2.2.2.2.2 rest le_rfl
      simp only [renderElems, List.length_cons, List.length_append]
      omega

/-! Statement- and program-level parsing. -/

def sizeStmt : Stmt → Nat
  | .selectOnly s => 1 + sizeSel s
  | .letQuery _ _ s => 1 + sizeSel s
  | .letExpr _ _ e => 1 + sizeE e

def sizeStmts : List Stmt → Nat
  | [] => 0
  | s :: rest => sizeStmt s + sizeStmts rest

theorem sizeStmt_pos (s : Stmt) : 1 ≤ sizeStmt s := by
  cases s <;> simp only [sizeStmt] <;> omega

theorem sizeStmt_le (s : Stmt) : sizeStmt s ≤ 2 * (renderStmt s).length := by
  cases s with
  | selectOnly q =>
    have h := (lenBound (sizeSel q)).2.2.2.2.2.2.1 q le_rfl
    simp only [sizeStmt, renderStmt]
    omega
  | letQuery nm mat q =>
    have h := (lenBound (sizeSel q)).2.2.2.2.2.2.1 q le_rfl
    cases mat <;> simp only [sizeStmt, renderStmt, List.length_cons] <;> omega
  | letExpr nm mat e =>
    have h := (lenBound (sizeE e)).1 e le_rfl
    cases mat <;> simp only [sizeStmt, renderStmt, List.length_cons] <;> omega

theorem sizeStmts_le (L : List Stmt) :
    sizeStmts L ≤ 2 * (renderProgram L).length := by
  induction L with
  | nil => simp [sizeStmts, renderProgram]
  | cons s rest ih =>
    have h := sizeStmt_le s
    simp only [sizeStmts, renderProgram, List.length_append]
    omega

theorem renderSelect_shape (q : SelectAst) :
    ∃ ts, renderSelect q = Tok.kwSelect :: ts := by
  obtain ⟨cols, plugin, args, whereE, groupE, orderE, lim⟩ := q
  exact ⟨_, rfl⟩

theorem renderStmt_shape (s : Stmt) :
    ∃ ts, renderStmt s = Tok.kwSelect :: ts ∨
      renderStmt s = Tok.kwLet :: ts := by
  cases s with
  | selectOnly q =>
    obtain ⟨ts, hts⟩ := renderSelect_shape q
    exact ⟨ts, Or.inl hts⟩
  | letQuery nm mat q => cases mat <;> exact ⟨_, Or.inr rfl⟩
  | letExpr nm mat e => cases mat <;> exact ⟨_, Or.inr rfl⟩

theorem selStop_renderProgram (L : List Stmt) : SelStop (renderProgram L) := by
  cases L with
  | nil =>
    refine ⟨rfl, ?_, ?_, ?_, ?_, ?_⟩ <;> simp [renderProgram]
  | cons s rest =>
    obtain ⟨ts, h | h⟩ := renderStmt_shape s <;>
    · simp only [renderProgram, h, List.cons_append]
      exact ⟨by simp [stopAt, contLevel], by simp, by simp, by simp,
        by simp, by simp⟩

theorem parseStmt_ok (s : Stmt) (f : Nat) (rest : List Tok)
    (hstop : SelStop rest) (hf : 30 * sizeStmt s + 16 ≤ f) :
    parseStmt f (renderStmt s ++ rest) = some (s, rest) := by
  obtain ⟨f1, rfl⟩ : ∃ f1, f = f1 + 1 := ⟨f - 1, by omega⟩
  cases s with
  | selectOnly q =>
    obtain ⟨ts, hts⟩ := renderSelect_shape q
    have hsel := (parse_master (sizeSel q)).sel q le_rfl f1 rest hstop
      (by simp only [sizeStmt] at hf; omega)
    rw [hts] at hsel
    simp only [List.cons_append] at hsel
    simp only [renderStmt, hts, List.cons_append]
    simp [parseStmt, hsel]
  | letQuery nm mat q =>
    obtain ⟨ts, hts⟩ := renderSelect_shape q
    have hsel := (parse_master (sizeSel q)).sel q le_rfl f1 rest hstop
      (by simp only [sizeStmt] at hf; omega)
    rw [hts] at hsel
    simp only [List.cons_append] at hsel
    cases mat <;>
    · simp only [renderStmt, hts, List.cons_append]
      simp [parseStmt, parseLetBody, hsel]
  | letExpr nm mat e =>
    have hor := ((parse_master (sizeE e)).expr e le_rfl).por f1 rest
      hstop.1 (by simp only [sizeStmt] at hf; omega)
    rcases hrr : renderRaw e with _ | ⟨t, ts⟩
    · exact absurd hrr (renderRaw_ne_nil e)
    have ht : t ≠ Tok.kwSelect :=
      (renderRaw_head (sizeE e) e le_rfl t ts hrr).1
    rw [hrr] at hor
    simp only [List.cons_append] at hor
    cases mat <;>
    · simp only [renderStmt, hrr, List.cons_append]
      simp [parseStmt, parseLetBody, ht, hor]

theorem parseProgram_ok (L : List Stmt) :
    ∀ f, 30 * sizeStmts L + 18 ≤ f →
      parseProgram f (renderProgram L) = some L := by
  induction L with
  | nil =>
    intro f hf
    obtain ⟨f1, rfl⟩ : ∃ f1, f = f1 + 1 := ⟨f - 1, by omega⟩
    simp [renderProgram, parseProgram]
  | cons s rest ih =>
    intro f hf
    obtain ⟨f1, rfl⟩ : ∃ f1, f = f1 + 1 := ⟨f - 1, by omega⟩
    have hone := sizeStmt_pos s
    simp only [sizeStmts] at hf
    have hstmt := parseStmt_ok s f1 (renderProgram rest)
      (selStop_renderProgram rest) (by omega)
    have hrest := ih f1 (by omega)
    rcases hrs : renderStmt s with _ | ⟨t, ts⟩
    · exfalso
      obtain ⟨ts2, h | h⟩ := renderStmt_shape s <;> rw [hrs] at h <;>
        simp at h
    · rw [hrs] at hstmt
      simp only [List.cons_append] at hstmt
      simp only [renderProgram, hrs, List.cons_append]
      simp only [parseProgram]
      rw [hstmt]
      simp [hrest]

/-- C1: the round-trip property of canonicalization. For every AST (a
statement list as produced by Parse), re-parsing the canonical
rendering reproduces the AST structurally:
parseVQL (renderProgram prog) = some prog. -/
theorem c1_parse_render_roundtrip (prog : List Stmt) :
    parseVQL (renderProgram prog) = some prog := by
  unfold parseVQL
  have hlen := sizeStmts_le prog
  exact parseProgram_ok prog _ (by omega)

end VFilter
